import Mathlib

/-!
MusicTheory: tuning intervals and periodic scales.

A shallow embedding of `MusicTheory/Tuning.cpp` (and its near-duplicate
`CMakeProject1/Tuning.cpp`) together with theorems about it.

Conventions of the embedding.

* The C++ type `int` is a 32-bit two's complement integer.  A value of type `int` is an
  `Int` in the range `[-2^31, 2^31)`; every arithmetic operation of the source is followed
  by `wrap32`, which reduces modulo `2^32` into that range.
* `unsigned int` is a `Nat` below `2^32`, `uint64_t` a `Nat` below `2^64`.
* `double` is modelled by an arbitrary linearly ordered field `K` with exact arithmetic and
  exact comparison; rounding is not modelled.  `almost_equal` of the `MusicTheory` copy is
  the exact equality of `K`, as is `==` of the `CMakeProject1` copy.
* A C++ exception or failed assertion is an `Except.error`.
* The remainder `a % b` of two `int`s is undefined when the quotient `a / b` is not
  representable, that is for `INT_MIN % -1`; the division instruction of the machine traps
  there and the program is terminated.  This is the error `arithmetic_fault`; it is not a
  wrap-around.
* The loop of `farey` can fail to terminate once a denominator has wrapped around, so it
  takes the number of iterations it may run (`fuel`); `none` means that the loop is still
  running.  A statement that `farey` returns a value gives a number of iterations that
  is enough; `fareyLoop_fuel_mono` shows that more iterations do not change the value.
* The copy under `MusicTheory` is the one embedded; the copy under `CMakeProject1` differs
  in the mediant test (`==`), in computing the mediant from `int` sums, and in the second
  line written by `stream_scala`.
-/

namespace MusicTheory

/-! ## Machine integers -/

/-- Smallest value of the C++ type `int`. -/
def INT_MIN : Int := -2147483648

/-- Largest value of the C++ type `int`. -/
def INT_MAX : Int := 2147483647

/-- The value fits in the C++ type `int`. -/
def InInt (x : Int) : Prop := INT_MIN ≤ x ∧ x ≤ INT_MAX

instance (x : Int) : Decidable (InInt x) := by
  unfold InInt; exact inferInstance

/-- Reduction of a mathematical integer to the 32-bit two's complement range. -/
def wrap32 (x : Int) : Int := (x + 2147483648) % 4294967296 - 2147483648

/-- Conversion of an `int` to `unsigned int` (reduction modulo `2^32`). -/
def toUnsigned (x : Int) : Nat := (x % 4294967296).toNat

/-- Conversion of an `int` to `uint64_t` (reduction modulo `2^64`). -/
def toU64 (x : Int) : Nat := (x % 18446744073709551616).toNat

/-- Addition of two `uint64_t` values. -/
def addU64 (x y : Nat) : Nat := (x + y) % 18446744073709551616

/-- The failures the code can raise. -/
inductive Error where
  | bad_rational
  | out_of_range
  | assertion_failed
  | arithmetic_fault
  deriving DecidableEq, Repr

/-! ## Ratio: `boost::rational<int>` -/

/-- A value of `boost::rational<int>`: the two stored `int` fields. -/
structure Ratio where
  num : Int
  den : Int
  deriving DecidableEq, Repr

/-- The class invariant of a rational: positive denominator, lowest terms, fields in range. -/
def Ratio.Normal (r : Ratio) : Prop :=
  0 < r.den ∧ Int.gcd r.num r.den = 1 ∧ InInt r.num ∧ InInt r.den

/-- The exact value of a rational. -/
def Ratio.value (r : Ratio) : ℚ := (r.num : ℚ) / (r.den : ℚ)

/-- Modelled from the spec: the two-argument constructor of `boost::rational<int>`, a library
type that is not part of the repository.  The spec describes a ratio as an "exact rational,
denominator > 0, automatically reduced to lowest terms, sign carried on numerator"; a zero
denominator (and a denominator whose negation is not representable) raises `bad_rational`
in the library. -/
def Ratio.make (n d : Int) : Except Error Ratio :=
  if d = 0 then Except.error Error.bad_rational
  else if n = 0 then Except.ok ⟨0, 1⟩
  else
    let g : Int := Int.gcd n d
    let num := n / g
    let den := d / g
    if den < -INT_MAX then Except.error Error.bad_rational
    else if den < 0 then Except.ok ⟨wrap32 (-num), wrap32 (-den)⟩
    else Except.ok ⟨num, den⟩

/-- Modelled from the spec: `int + boost::rational<int>` of the library, which adds
`i * den` to the numerator and keeps the denominator. -/
def Ratio.addInt (i : Int) (r : Ratio) : Ratio :=
  ⟨wrap32 (r.num + wrap32 (i * r.den)), r.den⟩

/-! ## TuningInterval -/

/-- The constant `CENTS_PER_OCTAVE`. -/
def CENTS_PER_OCTAVE : Int := 1200

/-- The variant stored in a `TuningInterval`: cents (a `double`) or a ratio. -/
inductive TuningInterval (K : Type) where
  | fromCents (c : K)
  | fromRatio (r : Ratio)

/-- The constructor `TuningInterval(int numer, int denom)`. -/
def TuningInterval.ofNumerDenom {K : Type} (numer denom : Int) :
    Except Error (TuningInterval K) :=
  match Ratio.make numer denom with
  | Except.ok r => Except.ok (TuningInterval.fromRatio r)
  | Except.error e => Except.error e

/-- The storage form is the Ratio alternative. -/
def TuningInterval.isRatio {K : Type} : TuningInterval K → Bool
  | TuningInterval.fromCents _ => false
  | TuningInterval.fromRatio _ => true

/-- The loop of `powi`: `res`, `base` are `int`, `exp` is `unsigned int`. -/
def powiLoop (res base : Int) (exp : Nat) : Int :=
  if h : exp = 0 then res
  else
    powiLoop (if exp % 2 = 1 then wrap32 (res * base) else res) (wrap32 (base * base)) (exp / 2)
termination_by exp
decreasing_by exact Nat.div_lt_self (Nat.pos_of_ne_zero h) (by decide)

/-- Integer power by squaring, `powi(int base, unsigned int exp)`. -/
def powi (base : Int) (exp : Nat) : Int := powiLoop 1 base exp

/-- Octave transposition, `TuningInterval::add_octaves` (`transpose_octaves` in the
`CMakeProject1` copy). -/
def TuningInterval.add_octaves {K : Type} [LinearOrderedField K]
    (self : TuningInterval K) (octaves : Int) : Except Error (TuningInterval K) :=
  match self with
  | TuningInterval.fromCents c =>
      let more_cents : Int := wrap32 (octaves * CENTS_PER_OCTAVE)
      Except.ok (TuningInterval.fromCents (c + (more_cents : K)))
  | TuningInterval.fromRatio r =>
      if octaves = 0 then Except.ok (TuningInterval.fromRatio r)
      else if octaves > 0 then
        TuningInterval.ofNumerDenom (wrap32 (r.num * powi 2 (toUnsigned octaves))) r.den
      else
        TuningInterval.ofNumerDenom r.num
          (wrap32 (r.den * powi 2 (toUnsigned (wrap32 (-octaves)))))

/-! ## Closest rational -/

/-- The test `almost_equal(x, mediant)` for `mediant = dividend / divisor`, as exact equality.
The divisor can be zero only after a wrap-around; the double division then gives an infinity,
which `almost_equal` accepts (`inf <= inf`), or, for `0 / 0`, a NaN, which it rejects. -/
def mediant_equal {K : Type} [LinearOrderedField K] (x : K) (dividend divisor : Nat) : Bool :=
  if divisor = 0 then decide (dividend ≠ 0)
  else decide (x = (dividend : K) / (divisor : K))

/-- The test `x > mediant` for `mediant = dividend / divisor`; it fails for an infinite or NaN
mediant (zero divisor). -/
def mediant_below {K : Type} [LinearOrderedField K] (x : K) (dividend divisor : Nat) : Bool :=
  if divisor = 0 then false
  else decide (x > (dividend : K) / (divisor : K))

/-- The loop of `farey` started in the state `a/b`, `c/d` and run for at most `fuel`
iterations of its body; `none` means that the loop is still running after `fuel` iterations.
The mediant is computed as in the `MusicTheory` copy, from sums taken in `uint64_t`. -/
def fareyLoop {K : Type} [LinearOrderedField K] (x : K) (max_denom : Int)
    (fuel : Nat) (a b c d : Int) : Option (Except Error Ratio) :=
  if b ≤ max_denom ∧ d ≤ max_denom then
    match fuel with
    | 0 => none
    | fuel + 1 =>
      let dividend : Nat := addU64 (toU64 a) (toU64 c)
      let divisor : Nat := addU64 (toU64 b) (toU64 d)
      if mediant_equal x dividend divisor then
        if wrap32 (b + d) ≤ max_denom then some (Ratio.make (wrap32 (a + c)) (wrap32 (b + d)))
        else if d > b then some (Ratio.make c d)
        else some (Ratio.make a b)
      else if mediant_below x dividend divisor then
        fareyLoop x max_denom fuel (wrap32 (a + c)) (wrap32 (b + d)) c d
      else
        fareyLoop x max_denom fuel a b (wrap32 (c + a)) (wrap32 (d + b))
  else if b > max_denom then some (Ratio.make c d)
  else some (Ratio.make a b)

/-- The Farey search `farey(double x, int max_denom)`, its loop bounded by `fuel`. -/
def farey {K : Type} [LinearOrderedField K] (fuel : Nat) (x : K) (max_denom : Int) :
    Option (Except Error Ratio) :=
  fareyLoop x max_denom fuel 0 1 1 1

/-- Truncation toward zero, `std::trunc`. -/
def trunc {K : Type} [LinearOrderedField K] [FloorRing K] (x : K) : Int :=
  if 0 ≤ x then Int.floor x else Int.ceil x

/-- The function `closest_rational(double x)`. -/
def closest_rational {K : Type} [LinearOrderedField K] [FloorRing K] (fuel : Nat) (x : K) :
    Option (Except Error Ratio) :=
  let integral_part : Int := wrap32 (trunc x)
  let fractional_part : K := x - (integral_part : K)
  let max_denom : Int := 200
  match farey fuel fractional_part max_denom with
  | none => none
  | some (Except.error e) => some (Except.error e)
  | some (Except.ok rational_fractional_part) =>
      some (Except.ok (Ratio.addInt integral_part rational_fractional_part))

/-- The function `cents_to_ratio_as_double`; `pow2` stands for `std::pow(2, ·)`. -/
def cents_to_ratio_as_double {K : Type} [LinearOrderedField K] (pow2 : K → K) (cents : K) : K :=
  pow2 (cents / (CENTS_PER_OCTAVE : K))

/-- The accessor `TuningInterval::ratio`. -/
def TuningInterval.ratio {K : Type} [LinearOrderedField K] [FloorRing K] (pow2 : K → K)
    (fuel : Nat) : TuningInterval K → Option (Except Error Ratio)
  | TuningInterval.fromCents c => closest_rational fuel (cents_to_ratio_as_double pow2 c)
  | TuningInterval.fromRatio r => some (Except.ok r)

/-! ## Textual rendering -/

/-- The stream insertion of a `boost::rational<int>`: numerator, a slash, denominator. -/
def Ratio.render (r : Ratio) : String := toString r.num ++ "/" ++ toString r.den

/-- The decimal digits of `m`, padded on the left with zeros to `width` digits. -/
def pad_digits (width m : Nat) : List Char :=
  let ds := Nat.toDigits 10 m
  List.replicate (width - ds.length) '0' ++ ds

/-- The fractional part as it is written: the trailing zeros of the digits `ds` are removed,
and the decimal point is written only when a digit is left. -/
def fraction_digits (ds : List Char) : List Char :=
  let kept := (ds.reverse.dropWhile (fun c => c = '0')).reverse
  if kept = [] then [] else '.' :: kept

/-- The decimal exponent of the positive fraction `n / d`: the `e` with
`10^e ≤ n / d < 10^(e + 1)`. -/
def decimal_exponent (n d : Nat) : Int :=
  if d ≤ n then ((Nat.toDigits 10 (n / d)).length : Int) - 1
  else -((Nat.toDigits 10 ((d - 1) / n)).length : Int)

/-- The fraction `n / d` rounded to the nearest integer, ties to even. -/
def round_half_even (n d : Nat) : Nat :=
  let q := n / d
  let r := n % d
  if 2 * r < d then q
  else if 2 * r > d then q + 1
  else if q % 2 = 0 then q else q + 1

/-- The characters written for the positive fraction `n / d` in the general format with six
significant digits: `m` is the value rounded to six significant digits and `X` the decimal
exponent of the rounded value; fixed notation is used for `-4 ≤ X < 6`, scientific notation
(with a sign and at least two digits of exponent) otherwise. -/
def general_digits (n d : Nat) : List Char :=
  let e0 := decimal_exponent n d
  let m0 := if e0 ≤ 5 then round_half_even (n * 10 ^ (5 - e0).toNat) d
            else round_half_even n (d * 10 ^ (e0 - 5).toNat)
  let m := if m0 = 1000000 then 100000 else m0
  let X := if m0 = 1000000 then e0 + 1 else e0
  if -4 ≤ X ∧ X < 6 then
    let width := (5 - X).toNat
    Nat.toDigits 10 (m / 10 ^ width) ++ fraction_digits (pad_digits width (m % 10 ^ width))
  else
    Nat.toDigits 10 (m / 100000) ++ fraction_digits (pad_digits 5 (m % 100000))
      ++ ['e', if X < 0 then '-' else '+'] ++ pad_digits 2 X.natAbs

/-- Modelled from the spec: the stream insertion of a `double` into a stream in its default
state, a function of the C++ standard library, which is not part of the repository.  The
spec describes it as "a fixed 6-significant-digit default formatting (matching typical
default real-number formatting), e.g. `94.87252` renders as `94.8725`"; the library writes
a `double` as `printf` does with the conversion `%g` and precision 6.  The `double` is the
exact rational `x`. -/
def ostream_double (x : ℚ) : String :=
  if x = 0 then "0"
  else (if x < 0 then "-" else "") ++ String.mk (general_digits x.num.natAbs x.den)

/-- The stream insertion `operator<<` of a `TuningInterval`; `fmt` stands for the stream
insertion of a `double`. -/
def TuningInterval.render {K : Type} (fmt : K → String) : TuningInterval K → String
  | TuningInterval.fromCents c => fmt c
  | TuningInterval.fromRatio r => r.render

/-! ## Tuning -/

/-- A tuning: name, description and the stored intervals. -/
structure Tuning (K : Type) where
  name : String
  description : String
  intervals : List (TuningInterval K)

/-- The number of stored intervals converted to `int`, `Tuning::degree`. -/
def Tuning.degree {K : Type} (self : Tuning K) : Int := wrap32 (self.intervals.length : Int)

/-- Non-negative remainder, `euclidean_remainder(int a, int b)`.  After the assertion
`b != 0`, the remainder `a % b` is the truncating one; it is undefined for `INT_MIN % -1`,
whose quotient is not an `int`, and the program is terminated there. -/
def euclidean_remainder (a b : Int) : Except Error Int :=
  if b = 0 then Except.error Error.assertion_failed
  else if a = INT_MIN ∧ b = -1 then Except.error Error.arithmetic_fault
  else
    let r := Int.tmod a b
    Except.ok (if r ≥ 0 then r else wrap32 (r + wrap32 |b|))

/-- Bounds-checked element access `std::vector::at`, the `int` index being converted to the
unsigned `size_type`. -/
def vector_at {α : Type} (xs : List α) (index : Int) : Except Error α :=
  if index < 0 then Except.error Error.out_of_range
  else
    match xs.get? index.toNat with
    | some v => Except.ok v
    | none => Except.error Error.out_of_range

/-- The base index computed by `Tuning::at` for `n ≠ 0`. -/
def Tuning.base_index {K : Type} (self : Tuning K) (n : Int) : Except Error Int :=
  euclidean_remainder (wrap32 (n - 1)) self.degree

/-- The octave count computed by `Tuning::at` for `n ≠ 0`. -/
def Tuning.octave {K : Type} (self : Tuning K) (n : Int) : Int :=
  if n < 0 then wrap32 (wrap32 (Int.tdiv n self.degree) - 1)
  else wrap32 (Int.tdiv (wrap32 (n - 1)) self.degree)

/-- The `n`-th pitch of the infinitely repeating tuning, `Tuning::at(int n)`. -/
def Tuning.at {K : Type} [LinearOrderedField K] (self : Tuning K) (n : Int) :
    Except Error (TuningInterval K) :=
  if n = 0 then TuningInterval.ofNumerDenom 1 1
  else
    match self.base_index n with
    | Except.error e => Except.error e
    | Except.ok base_index =>
      match vector_at self.intervals base_index with
      | Except.error e => Except.error e
      | Except.ok base_interval => base_interval.add_octaves (self.octave n)

/-- The function `Tuning::stream_scala`, the stream being the text written so far. -/
def Tuning.stream_scala {K : Type} (fmt : K → String) (self : Tuning K) (out : String) :
    String :=
  let out := out ++ "! " ++ self.name ++ "\n!\n" ++ self.description ++ "\n"
    ++ toString self.degree ++ "\n!\n"
  self.intervals.foldl (fun os interval => os ++ interval.render fmt ++ "\n") out

/-! ## The tuning of the unit test -/

/-- The tuning built by the unit test `output_tuning_as_scala`, cents given as exact
decimal fractions. -/
def bremmer_ebvt3 : Tuning ℚ where
  name := "bremmer_ebvt3.scl"
  description := "Bill Bremmer EBVT III temperament (2011)"
  intervals := [
    TuningInterval.fromCents (9487252 / 100000),
    TuningInterval.fromCents (19705899 / 100000),
    TuningInterval.fromCents (2978 / 10),
    TuningInterval.fromCents (39579561 / 100000),
    TuningInterval.fromRatio ⟨4, 3⟩,
    TuningInterval.fromCents (59589736 / 100000),
    TuningInterval.fromCents (69931190 / 100000),
    TuningInterval.fromCents (79682704 / 100000),
    TuningInterval.fromCents (89620299 / 100000),
    TuningInterval.fromCents (9991 / 10),
    TuningInterval.fromCents (109617389 / 100000),
    TuningInterval.fromRatio ⟨2, 1⟩]

/-! ## Relations used in the statements -/

/-- The interval `hi` has the storage form of `lo` and is exactly one octave above it: cents
larger by 1200, or ratio value doubled. -/
def TuningInterval.OctaveAbove {K : Type} [LinearOrderedField K]
    (hi lo : TuningInterval K) : Prop :=
  match lo, hi with
  | TuningInterval.fromCents c, TuningInterval.fromCents c2 => c2 = c + 1200
  | TuningInterval.fromRatio r, TuningInterval.fromRatio r2 => r2.value = 2 * r.value
  | _, _ => False

/-- Transposing the interval by `o` octaves stays inside the range of `int`: the product
`o * 1200` for cents; for a ratio with positive denominator, `|o| ≤ 30` and the scaled
numerator (`o > 0`) or denominator (`o < 0`) fits. -/
def TuningInterval.TransposeFits {K : Type} : TuningInterval K → Int → Prop
  | TuningInterval.fromCents _, o => InInt (o * CENTS_PER_OCTAVE)
  | TuningInterval.fromRatio r, o =>
      0 < r.den ∧ |o| ≤ 30 ∧ (0 < o → InInt (r.num * 2 ^ o.toNat)) ∧
        (o < 0 → InInt (r.den * 2 ^ (-o).toNat))

/-- A two-note tuning stored in cents only: a fifth of 700 cents and the octave of 1200
cents. -/
def fifth_and_octave : Tuning ℚ where
  name := "fifth_and_octave.scl"
  description := "A fifth and an octave, both in cents"
  intervals := [TuningInterval.fromCents 700, TuningInterval.fromCents 1200]

/-- The invariant of the Farey search: two fractions of `[0, 1]` that are neighbours
(`b * c - a * d = 1`). -/
def FareyInv (a b c d : Int) : Prop :=
  0 ≤ a ∧ 1 ≤ b ∧ 0 ≤ c ∧ 1 ≤ d ∧ a ≤ b ∧ c ≤ d ∧ b * c - a * d = 1

/-- The text made of the given lines, each terminated by a newline. -/
def text_of_lines : List String → String
  | [] => ""
  | l :: ls => l ++ "\n" ++ text_of_lines ls

/-! ## Further definitions used in the statements -/

/-- The naive power of the spec: `exp` successive multiplications by `base`, each reduced to
the 32-bit two's complement range. -/
def naive_pow (base : Int) : Nat → Int
  | 0 => 1
  | exp + 1 => wrap32 (naive_pow base exp * base)

/-- A tuning with no stored interval. -/
def empty_tuning : Tuning ℚ where
  name := "empty.scl"
  description := "No interval"
  intervals := []

/-! ## Basic facts about machine integers -/

/-- A value in the range of `int` is not changed by the wrap-around. -/
theorem wrap32_of_InInt {x : Int} (h : InInt x) : wrap32 x = x := by
  unfold InInt INT_MIN INT_MAX at h
  unfold wrap32
  omega

/-- The wrap-around lands in the range of `int`. -/
theorem wrap32_InInt (x : Int) : InInt (wrap32 x) := by
  unfold InInt INT_MIN INT_MAX wrap32
  omega

/-! ## Periodic indexing -/

theorem tdiv_of_nonneg {a N : Int} (ha : 0 ≤ a) (hN : 0 < N) : Int.tdiv a N = a / N :=
  Int.tdiv_eq_ediv ha hN.le

theorem tdiv_of_nonpos {a N : Int} (ha : a ≤ 0) (hN : 0 < N) : Int.tdiv a N = -((-a) / N) := by
  have h := Int.neg_tdiv (-a) N
  rw [neg_neg] at h
  rw [h, Int.tdiv_eq_ediv (by omega) hN.le]

/-- Quotient and remainder are determined by the division equation. -/
theorem ediv_emod_of_eq {a N q r : Int} (hN : 0 < N) (h : r + N * q = a) (h0 : 0 ≤ r)
    (h1 : r < N) : a / N = q ∧ a % N = r :=
  (Int.ediv_emod_unique hN).2 ⟨h, h0, h1⟩

/-- The code's two computations for a positive modulus `N`, with no wrap-around: the
truncating remainder corrected to a non-negative one, and the truncating quotient corrected
for negative indices, are the Euclidean remainder and the floor quotient of `k - 1`. -/
theorem trunc_to_floor {k N : Int} (hN : 0 < N) (hk : k ≠ 0) :
    (if Int.tmod (k - 1) N ≥ 0 then Int.tmod (k - 1) N else Int.tmod (k - 1) N + N)
        = (k - 1) % N ∧
    (if k < 0 then Int.tdiv k N - 1 else Int.tdiv (k - 1) N) = (k - 1) / N := by
  rcases lt_or_gt_of_ne hk with hneg | hpos
  · -- negative index
    have hq := Int.emod_add_ediv (-k) N
    have hs0 := Int.emod_nonneg (-k) hN.ne'
    have hs1 := Int.emod_lt_of_pos (-k) hN
    have hfl := ediv_emod_of_eq (a := k - 1) (q := -((-k) / N) - 1) (r := N - (-k) % N - 1) hN
      (by have : N * (-(-k / N) - 1) = -(N * (-k / N)) - N := by ring
          rw [this]; omega) (by omega) (by omega)
    have htd : Int.tdiv k N = -((-k) / N) := tdiv_of_nonpos hneg.le hN
    have htd1 : Int.tdiv (k - 1) N = -((-(k - 1)) / N) := tdiv_of_nonpos (by omega) hN
    have htm := Int.tmod_def (k - 1) N
    rw [htd1] at htm
    -- quotient of -(k-1) = -k + 1
    have hq1 := Int.emod_add_ediv (-(k - 1)) N
    have hu0 := Int.emod_nonneg (-(k - 1)) hN.ne'
    have hu1 := Int.emod_lt_of_pos (-(k - 1)) hN
    have hmul : N * -(-(k - 1) / N) = -(N * (-(k - 1) / N)) := by ring
    rw [hmul] at htm
    have htm2 : Int.tmod (k - 1) N = -((-(k - 1)) % N) := by omega
    rw [hfl.1, hfl.2, htm2, if_pos hneg, htd]
    refine ⟨?_, rfl⟩
    by_cases hc : (-k) % N + 1 < N
    · have := ediv_emod_of_eq (a := -(k - 1)) (q := (-k) / N) (r := (-k) % N + 1) hN
        (by omega) (by omega) hc
      rw [this.2]
      split_ifs <;> omega
    · have := ediv_emod_of_eq (a := -(k - 1)) (q := (-k) / N + 1) (r := 0) hN
        (by have : N * (-k / N + 1) = N * (-k / N) + N := by ring
            rw [this]; omega) (by omega) hN
      rw [this.2]
      split_ifs <;> omega
  · have h0 : 0 ≤ k - 1 := by omega
    have hm : Int.tmod (k - 1) N = (k - 1) % N := Int.tmod_eq_emod h0 hN.le
    have hnn := Int.emod_nonneg (k - 1) hN.ne'
    rw [hm, if_pos hnn, if_neg (by omega), tdiv_of_nonneg h0 hN]
    exact ⟨rfl, rfl⟩


theorem ediv_bounds {a N : Int} (hN : 0 < N) :
    (0 ≤ a → 0 ≤ a / N ∧ a / N ≤ a) ∧ (a ≤ 0 → a ≤ a / N ∧ a / N ≤ 0) := by
  have h1 := Int.emod_add_ediv a N
  have h2 := Int.emod_nonneg a hN.ne'
  have h3 := Int.emod_lt_of_pos a hN
  constructor
  · intro ha
    have hq : 0 ≤ a / N := Int.ediv_nonneg ha hN.le
    exact ⟨hq, by nlinarith⟩
  · intro ha
    have hq : a / N ≤ 0 := by
      by_contra hc
      have : 1 ≤ a / N := by omega
      nlinarith
    exact ⟨by nlinarith, hq⟩

theorem degree_eq_length {K : Type} (S : Tuning K)
    (hfit : (S.intervals.length : Int) ≤ INT_MAX) : S.degree = (S.intervals.length : Int) := by
  unfold Tuning.degree
  apply wrap32_of_InInt
  unfold InInt INT_MIN
  constructor
  · have : (0 : Int) ≤ (S.intervals.length : Int) := Int.ofNat_nonneg _
    omega
  · exact hfit

/-- The base index of `at` is the Euclidean remainder of `k - 1`. -/
theorem base_index_eq {K : Type} (S : Tuning K) (k : Int)
    (hN : 1 ≤ S.intervals.length) (hfit : (S.intervals.length : Int) ≤ INT_MAX)
    (hk0 : k ≠ 0) (hk1 : InInt (k - 1)) :
    S.base_index k = Except.ok (Int.emod (k - 1) (S.intervals.length : Int)) := by
  have hNpos : (0 : Int) < (S.intervals.length : Int) := by exact_mod_cast hN
  have hfl := (trunc_to_floor hNpos hk0).1
  have hr0 := Int.emod_nonneg (k - 1) hNpos.ne'
  have hr1 := Int.emod_lt_of_pos (k - 1) hNpos
  have hquot : ¬ (k - 1 = INT_MIN ∧ (S.intervals.length : Int) = -1) := by
    rintro ⟨-, h⟩
    omega
  unfold Tuning.base_index euclidean_remainder
  rw [degree_eq_length S hfit, wrap32_of_InInt hk1, if_neg hNpos.ne', if_neg hquot,
    abs_of_pos hNpos]
  have hw : wrap32 (S.intervals.length : Int) = (S.intervals.length : Int) :=
    wrap32_of_InInt ⟨by unfold INT_MIN; omega, hfit⟩
  simp only [hw]
  refine congrArg Except.ok ?_
  by_cases hc : Int.tmod (k - 1) (S.intervals.length : Int) ≥ 0
  · rw [if_pos hc] at hfl ⊢
    exact hfl
  · rw [if_neg hc] at hfl ⊢
    rw [hfl]
    apply wrap32_of_InInt
    unfold InInt INT_MIN INT_MAX
    unfold INT_MAX at hfit
    constructor <;> omega

/-- The octave count of `at` is the floor quotient of `k - 1`. -/
theorem octave_eq {K : Type} (S : Tuning K) (k : Int)
    (hN : 1 ≤ S.intervals.length) (hfit : (S.intervals.length : Int) ≤ INT_MAX)
    (hk0 : k ≠ 0) (hk : InInt k) (hk1 : InInt (k - 1)) :
    S.octave k = Int.fdiv (k - 1) (S.intervals.length : Int) := by
  have hNpos : (0 : Int) < (S.intervals.length : Int) := by exact_mod_cast hN
  have hfl := (trunc_to_floor hNpos hk0).2
  rw [Int.fdiv_eq_ediv _ hNpos.le]
  have hb := ediv_bounds (a := k - 1) hNpos
  have hin : InInt ((k - 1) / (S.intervals.length : Int)) := by
    unfold InInt INT_MIN INT_MAX at *
    rcases le_total 0 (k - 1) with h | h
    · have := hb.1 h; constructor <;> omega
    · have := hb.2 h; constructor <;> omega
  unfold Tuning.octave
  rw [degree_eq_length S hfit, wrap32_of_InInt hk1]
  by_cases hc : k < 0
  · rw [if_pos hc] at hfl ⊢
    have hb2 := (ediv_bounds (a := -k) hNpos).1 (by omega)
    have htd : Int.tdiv k (S.intervals.length : Int) = -((-k) / (S.intervals.length : Int)) :=
      tdiv_of_nonpos hc.le hNpos
    have hin2 : InInt (Int.tdiv k (S.intervals.length : Int)) := by
      rw [htd]
      unfold InInt INT_MIN INT_MAX at *
      constructor <;> omega
    rw [wrap32_of_InInt hin2, hfl, wrap32_of_InInt hin]
  · rw [if_neg hc] at hfl ⊢
    rw [hfl, wrap32_of_InInt hin]

theorem vector_at_of_lt {α : Type} (xs : List α) (i : Int) (h0 : 0 ≤ i)
    (h1 : i < (xs.length : Int)) :
    ∃ v, xs.get? i.toNat = some v ∧ vector_at xs i = Except.ok v := by
  have hlt : i.toNat < xs.length := by omega
  refine ⟨xs.get ⟨i.toNat, hlt⟩, List.get?_eq_get hlt, ?_⟩
  unfold vector_at
  rw [if_neg (by omega), List.get?_eq_get hlt]

/-- C10. For a tuning with `N ≥ 1` stored intervals (`N` fitting in `int`) and an index
`k ≠ 0` with `k - 1` representable, the assertion of `euclidean_remainder` holds (the base
index is computed), the base index satisfies `0 ≤ index < N`, and the bounds-checked lookup
`intervals.at(index)` returns a stored interval instead of raising `out_of_range`. -/
theorem at_lookup_in_bounds {K : Type} (S : Tuning K) (k : Int)
    (hN : 1 ≤ S.intervals.length) (hfit : (S.intervals.length : Int) ≤ INT_MAX)
    (hk0 : k ≠ 0) (hk1 : InInt (k - 1)) :
    ∃ index : Int, ∃ interval : TuningInterval K,
      S.base_index k = Except.ok index ∧ 0 ≤ index ∧ index < (S.intervals.length : Int) ∧
      vector_at S.intervals index = Except.ok interval := by
  have hNpos : (0 : Int) < (S.intervals.length : Int) := by exact_mod_cast hN
  have hr0 : 0 ≤ Int.emod (k - 1) (S.intervals.length : Int) :=
    Int.emod_nonneg (k - 1) hNpos.ne'
  have hr1 : Int.emod (k - 1) (S.intervals.length : Int) < (S.intervals.length : Int) :=
    Int.emod_lt_of_pos (k - 1) hNpos
  obtain ⟨v, _, hv⟩ := vector_at_of_lt S.intervals _ hr0 hr1
  exact ⟨_, v, base_index_eq S k hN hfit hk0 hk1, hr0, hr1, hv⟩

/-- The bound on the base index, at index `-13` of the twelve-interval tuning of the unit
test. -/
theorem at_lookup_in_bounds_witness :
    ∃ index : Int, ∃ interval : TuningInterval ℚ,
      bremmer_ebvt3.base_index (-13) = Except.ok index ∧ 0 ≤ index ∧
      index < (bremmer_ebvt3.intervals.length : Int) ∧
      vector_at bremmer_ebvt3.intervals index = Except.ok interval :=
  at_lookup_in_bounds bremmer_ebvt3 (-13) (by decide) (by decide) (by decide) (by decide)

/-- C8. For every tuning, whatever it stores, `at(0)` is the Ratio-form interval `1/1`, and
`ratio()` of that interval is `1/1`. -/
theorem at_zero_unison {K : Type} [LinearOrderedField K] [FloorRing K] (S : Tuning K)
    (pow2 : K → K) (fuel : Nat) :
    S.at 0 = Except.ok (TuningInterval.fromRatio ⟨1, 1⟩) ∧
    (TuningInterval.fromRatio ⟨1, 1⟩ : TuningInterval K).ratio pow2 fuel
      = some (Except.ok ⟨1, 1⟩) := by
  constructor
  · simp [Tuning.at, TuningInterval.ofNumerDenom, Ratio.make, INT_MAX]
  · rfl


/-! ## Integer power -/

theorem wrap32_modEq (x : Int) : wrap32 x ≡ x [ZMOD 4294967296] := by
  unfold Int.ModEq wrap32
  omega

theorem eq_wrap32_of_modEq {a b : Int} (ha : InInt a) (h : a ≡ b [ZMOD 4294967296]) :
    a = wrap32 b := by
  unfold Int.ModEq at h
  unfold InInt INT_MIN INT_MAX at ha
  unfold wrap32
  omega

theorem powiLoop_modEq (exp : Nat) : ∀ res base : Int,
    powiLoop res base exp ≡ res * base ^ exp [ZMOD 4294967296] := by
  induction exp using Nat.strong_induction_on with
  | _ exp ih =>
    intro res base
    rw [powiLoop]
    split_ifs with h0 hodd
    · subst h0; simp
    · have hlt : exp / 2 < exp := Nat.div_lt_self (Nat.pos_of_ne_zero h0) (by decide)
      refine (ih _ hlt _ _).trans ?_
      have hexp : exp = 2 * (exp / 2) + 1 := by omega
      have e1 : res * base ^ exp = (res * base) * (base * base) ^ (exp / 2) := by
        conv_lhs => rw [hexp]
        rw [pow_succ, pow_mul]; ring
      rw [e1]
      exact ((wrap32_modEq _).mul ((wrap32_modEq _).pow _))
    · have hlt : exp / 2 < exp := Nat.div_lt_self (Nat.pos_of_ne_zero h0) (by decide)
      refine (ih _ hlt _ _).trans ?_
      have hexp : exp = 2 * (exp / 2) := by omega
      have e1 : res * base ^ exp = res * (base * base) ^ (exp / 2) := by
        conv_lhs => rw [hexp]
        rw [pow_mul]; ring
      rw [e1]
      exact ((Int.ModEq.refl _).mul ((wrap32_modEq _).pow _))

theorem powiLoop_InInt (exp : Nat) : ∀ res base : Int, InInt res →
    InInt (powiLoop res base exp) := by
  induction exp using Nat.strong_induction_on with
  | _ exp ih =>
    intro res base hres
    rw [powiLoop]
    split_ifs with h0 hodd
    · exact hres
    · exact ih _ (Nat.div_lt_self (Nat.pos_of_ne_zero h0) (by decide)) _ _ (wrap32_InInt _)
    · exact ih _ (Nat.div_lt_self (Nat.pos_of_ne_zero h0) (by decide)) _ _ hres

/-- The square-and-multiply loop computes the power modulo `2^32`. -/
theorem powi_eq_wrap32_pow (base : Int) (exp : Nat) : powi base exp = wrap32 (base ^ exp) := by
  unfold powi
  apply eq_wrap32_of_modEq (powiLoop_InInt exp 1 base (by decide))
  simpa using powiLoop_modEq exp 1 base

theorem powi_two_of_le (k : Nat) (hk : k ≤ 30) : powi 2 k = 2 ^ k := by
  rw [powi_eq_wrap32_pow]
  apply wrap32_of_InInt
  have h1 : (2 : Int) ^ k ≤ 2 ^ 30 := pow_le_pow_right₀ (by norm_num) hk
  have h2 : (0 : Int) < 2 ^ k := by positivity
  unfold InInt INT_MIN INT_MAX
  constructor <;> omega



/-- Two rationals in lowest terms with positive denominators and equal values are equal. -/
theorem Ratio.eq_of_value_eq {r s : Ratio} (hr : 0 < r.den) (hrg : Int.gcd r.num r.den = 1)
    (hs : 0 < s.den) (hsg : Int.gcd s.num s.den = 1) (h : r.value = s.value) : r = s := by
  have h1 := Rat.num_div_eq_of_coprime hr hrg
  have h2 := Rat.den_div_eq_of_coprime hr hrg
  have h3 := Rat.num_div_eq_of_coprime hs hsg
  have h4 := Rat.den_div_eq_of_coprime hs hsg
  unfold Ratio.value at h
  rw [h] at h1 h2
  cases r; cases s
  simp only at h1 h2 h3 h4 ⊢
  rw [Ratio.mk.injEq]
  exact ⟨by rw [← h1, h3], by rw [← h2, h4]⟩

/-- The constructor with a positive denominator returns the value in lowest terms. -/
theorem Ratio.make_of_pos (n d : Int) (hd : 0 < d) :
    ∃ r, Ratio.make n d = Except.ok r ∧ 0 < r.den ∧ Int.gcd r.num r.den = 1 ∧
      r.value = (n : ℚ) / (d : ℚ) ∧ |r.num| ≤ |n| ∧ r.den ≤ d := by
  unfold Ratio.make
  rw [if_neg hd.ne']
  by_cases hn : n = 0
  · rw [if_pos hn]
    refine ⟨⟨0, 1⟩, rfl, by norm_num, by decide, ?_, ?_, ?_⟩
    · simp [Ratio.value, hn]
    · simp
    · show (1 : Int) ≤ d
      omega
  · rw [if_neg hn]
    have hgpos : 0 < Int.gcd n d := Int.gcd_pos_of_ne_zero_left d hn
    have hg : (0 : Int) < (Int.gcd n d : Int) := by exact_mod_cast hgpos
    obtain ⟨n', hn'⟩ := Int.gcd_dvd_left (a := n) (b := d)
    obtain ⟨d', hd'⟩ := Int.gcd_dvd_right (a := n) (b := d)
    have hnq : n / (Int.gcd n d : Int) = n' := Int.ediv_eq_of_eq_mul_right hg.ne' hn'
    have hdq : d / (Int.gcd n d : Int) = d' := Int.ediv_eq_of_eq_mul_right hg.ne' hd'
    have hd'pos : 0 < d' := by
      by_contra hc
      have : d' ≤ 0 := by omega
      nlinarith
    have hcop : Int.gcd n' d' = 1 := by
      have := Int.gcd_div_gcd_div_gcd (i := n) (j := d) hgpos
      rwa [hnq, hdq] at this
    simp only [hnq, hdq]
    rw [if_neg (by unfold INT_MAX; omega), if_neg (by omega)]
    refine ⟨⟨n', d'⟩, rfl, hd'pos, hcop, ?_, ?_, ?_⟩
    · unfold Ratio.value
      simp only
      have hgq : ((Int.gcd n d : Int) : ℚ) ≠ 0 := by exact_mod_cast hg.ne'
      have hd'q : (d' : ℚ) ≠ 0 := by exact_mod_cast hd'pos.ne'
      have e1 : (n : ℚ) = ((Int.gcd n d : Int) : ℚ) * (n' : ℚ) := by exact_mod_cast hn'
      have e2 : (d : ℚ) = ((Int.gcd n d : Int) : ℚ) * (d' : ℚ) := by exact_mod_cast hd'
      rw [e1, e2]
      field_simp
      ring
    · show |n'| ≤ |n|
      have : |n| = (Int.gcd n d : Int) * |n'| := by
        conv_lhs => rw [hn']
        rw [abs_mul, abs_of_pos hg]
      have h0 := abs_nonneg n'
      nlinarith
    · show d' ≤ d
      nlinarith

/-- The constructor keeps a fraction that is already in lowest terms. -/
theorem Ratio.make_of_normal (n d : Int) (hd : 0 < d) (hg : Int.gcd n d = 1) :
    Ratio.make n d = Except.ok ⟨n, d⟩ := by
  obtain ⟨r, hr, h1, h2, h3, _, _⟩ := Ratio.make_of_pos n d hd
  rw [hr]
  have : r = ⟨n, d⟩ := Ratio.eq_of_value_eq h1 h2 hd hg (by rw [h3]; rfl)
  rw [this]


/-! ## Octave transposition -/

theorem toUnsigned_of_small {k : Int} (h0 : 0 ≤ k) (h1 : k ≤ 30) : toUnsigned k = k.toNat := by
  unfold toUnsigned
  have : k % 4294967296 = k := Int.emod_eq_of_lt h0 (by omega)
  rw [this]

/-- Upward transposition of a ratio, in range. -/
theorem add_octaves_ratio_up {K : Type} [LinearOrderedField K] (r : Ratio) (k : Int)
    (hd : 0 < r.den) (hk0 : 0 < k) (hk : k ≤ 30) (hfit : InInt (r.num * 2 ^ k.toNat)) :
    ∃ r1, (TuningInterval.fromRatio r : TuningInterval K).add_octaves k
        = Except.ok (TuningInterval.fromRatio r1) ∧
      0 < r1.den ∧ Int.gcd r1.num r1.den = 1 ∧
      r1.value = r.value * 2 ^ k.toNat ∧
      |r1.num| ≤ |r.num| * 2 ^ k.toNat ∧ r1.den ≤ r.den := by
  obtain ⟨r1, h1, h2, h3, h4, h5, h6⟩ := Ratio.make_of_pos (r.num * 2 ^ k.toNat) r.den hd
  refine ⟨r1, ?_, h2, h3, ?_, ?_, h6⟩
  · unfold TuningInterval.add_octaves
    simp only
    rw [if_neg hk0.ne', if_pos hk0, toUnsigned_of_small hk0.le hk,
      powi_two_of_le _ (by omega), wrap32_of_InInt hfit]
    unfold TuningInterval.ofNumerDenom
    rw [h1]
  · rw [h4]
    unfold Ratio.value
    push_cast
    ring
  · rw [abs_mul, abs_of_pos (by positivity : (0 : Int) < 2 ^ k.toNat)] at h5
    exact h5

/-- Downward transposition of a ratio, in range. -/
theorem add_octaves_ratio_down {K : Type} [LinearOrderedField K] (r : Ratio) (k : Int)
    (hd : 0 < r.den) (hk0 : k < 0) (hk : -30 ≤ k) (hfit : InInt (r.den * 2 ^ (-k).toNat)) :
    ∃ r1, (TuningInterval.fromRatio r : TuningInterval K).add_octaves k
        = Except.ok (TuningInterval.fromRatio r1) ∧
      0 < r1.den ∧ Int.gcd r1.num r1.den = 1 ∧
      r1.value = r.value / 2 ^ (-k).toNat ∧
      |r1.num| ≤ |r.num| ∧ r1.den ≤ r.den * 2 ^ (-k).toNat := by
  have hpos : (0 : Int) < 2 ^ (-k).toNat := by positivity
  obtain ⟨r1, h1, h2, h3, h4, h5, h6⟩ :=
    Ratio.make_of_pos r.num (r.den * 2 ^ (-k).toNat) (mul_pos hd hpos)
  refine ⟨r1, ?_, h2, h3, ?_, h5, h6⟩
  · unfold TuningInterval.add_octaves
    simp only
    have hw : wrap32 (-k) = -k := wrap32_of_InInt (by unfold InInt INT_MIN INT_MAX; omega)
    rw [if_neg hk0.ne, if_neg (by omega), hw, toUnsigned_of_small (by omega) (by omega),
      powi_two_of_le _ (by omega), wrap32_of_InInt hfit]
    unfold TuningInterval.ofNumerDenom
    rw [h1]
  · rw [h4]
    unfold Ratio.value
    push_cast
    have hdq : (r.den : ℚ) ≠ 0 := by exact_mod_cast hd.ne'
    field_simp

/-- Transposition of a ratio inside the representable range multiplies its value by `2^k`. -/
theorem add_octaves_ratio_value {K : Type} [LinearOrderedField K] (r : Ratio) (k : Int)
    (hd : 0 < r.den) (hk : |k| ≤ 30)
    (hup : 0 < k → InInt (r.num * 2 ^ k.toNat))
    (hdown : k < 0 → InInt (r.den * 2 ^ (-k).toNat)) :
    ∃ r1, (TuningInterval.fromRatio r : TuningInterval K).add_octaves k
        = Except.ok (TuningInterval.fromRatio r1) ∧
      r1.value = r.value * (2 : ℚ) ^ k := by
  have hk' := abs_le.1 hk
  rcases lt_trichotomy k 0 with hneg | hzero | hpos
  · obtain ⟨r1, h1, _, _, h4, _, _⟩ :=
      add_octaves_ratio_down (K := K) r k hd hneg hk'.1 (hdown hneg)
    refine ⟨r1, h1, ?_⟩
    rw [h4]
    have hk2 : k = -(((-k).toNat : Int)) := by omega
    conv_rhs => rw [hk2]
    rw [zpow_neg, zpow_natCast]
    rfl
  · subst hzero
    exact ⟨r, by simp [TuningInterval.add_octaves], by simp⟩
  · obtain ⟨r1, h1, _, _, h4, _, _⟩ :=
      add_octaves_ratio_up (K := K) r k hd hpos hk'.2 (hup hpos)
    refine ⟨r1, h1, ?_⟩
    rw [h4]
    have hk2 : k = ((k.toNat : Int)) := by omega
    conv_rhs => rw [hk2]
    rw [zpow_natCast]

/-- C6. For a Ratio-form interval `n/d` with `d > 0` and an `int` `k` with `|k| ≤ 30` such that
`n * 2^k` (for `k > 0`) or `d * 2^|k|` (for `k < 0`) fits in `int`, `add_octaves(k)`
(`transpose_octaves(k)`) returns a Ratio-form interval whose value is exactly
`(n/d) * 2^k`; for `k = 0` it returns the interval unchanged. -/
theorem add_octaves_ratio_exact {K : Type} [LinearOrderedField K] (n d k : Int)
    (hd : 0 < d) (hk : |k| ≤ 30)
    (hup : 0 < k → InInt (n * 2 ^ k.toNat))
    (hdown : k < 0 → InInt (d * 2 ^ (-k).toNat)) :
    (∃ r1, (TuningInterval.fromRatio ⟨n, d⟩ : TuningInterval K).add_octaves k
        = Except.ok (TuningInterval.fromRatio r1) ∧
      r1.value = (n : ℚ) / (d : ℚ) * (2 : ℚ) ^ k) ∧
    (k = 0 → (TuningInterval.fromRatio ⟨n, d⟩ : TuningInterval K).add_octaves k
        = Except.ok (TuningInterval.fromRatio ⟨n, d⟩)) := by
  constructor
  · exact add_octaves_ratio_value ⟨n, d⟩ k hd hk hup hdown
  · intro h0
    subst h0
    simp [TuningInterval.add_octaves]

/-- Exact transposition of `4/3` by two octaves. -/
theorem add_octaves_ratio_exact_witness :
    (∃ r1, (TuningInterval.fromRatio ⟨4, 3⟩ : TuningInterval ℚ).add_octaves 2
        = Except.ok (TuningInterval.fromRatio r1) ∧
      r1.value = ((4 : Int) : ℚ) / ((3 : Int) : ℚ) * (2 : ℚ) ^ (2 : Int)) ∧
    ((2 : Int) = 0 → (TuningInterval.fromRatio ⟨4, 3⟩ : TuningInterval ℚ).add_octaves 2
        = Except.ok (TuningInterval.fromRatio ⟨4, 3⟩)) :=
  add_octaves_ratio_exact 4 3 2 (by norm_num) (by norm_num) (fun _ => by decide)
    (fun h => absurd h (by decide))

/-- C7, amended. For a Ratio-form interval `n/d` in lowest terms with `d > 0` and an `int` `k`
with `|k| ≤ 30` such that `|n| * 2^|k|` and `d * 2^|k|` fit in `int`, transposing by `k`
octaves and then by `-k` octaves returns exactly the original interval. -/
theorem add_octaves_round_trip {K : Type} [LinearOrderedField K] (r : Ratio) (k : Int)
    (hd : 0 < r.den) (hg : Int.gcd r.num r.den = 1) (hk : |k| ≤ 30)
    (hn : |r.num| * 2 ^ k.natAbs ≤ INT_MAX) (hdf : r.den * 2 ^ k.natAbs ≤ INT_MAX) :
    ∃ r1, (TuningInterval.fromRatio r : TuningInterval K).add_octaves k
        = Except.ok (TuningInterval.fromRatio r1) ∧
      (TuningInterval.fromRatio r1 : TuningInterval K).add_octaves (-k)
        = Except.ok (TuningInterval.fromRatio r) := by
  have hk' := abs_le.1 hk
  have hpow : (0 : Int) < 2 ^ k.natAbs := by positivity
  have habs := abs_nonneg r.num
  have hle := neg_abs_le r.num
  have hle2 := le_abs_self r.num
  unfold INT_MAX at hn hdf
  rcases lt_trichotomy k 0 with hneg | hzero | hpos
  · have e : (-k).toNat = k.natAbs := by omega
    obtain ⟨r1, h1, h2, h3, h4, h5, h6⟩ :=
      add_octaves_ratio_down (K := K) r k hd hneg hk'.1
        (by rw [e]; unfold InInt INT_MIN INT_MAX; constructor <;> nlinarith)
    have hab := abs_nonneg r1.num
    have hl1 := neg_abs_le r1.num
    have hl2 := le_abs_self r1.num
    obtain ⟨r2, g1, g2, g3, g4, _, _⟩ :=
      add_octaves_ratio_up (K := K) r1 (-k) h2 (by omega) (by omega)
        (by rw [e]; unfold InInt INT_MIN INT_MAX; constructor <;> nlinarith)
    refine ⟨r1, h1, ?_⟩
    rw [g1]
    have hv : r2.value = r.value := by
      rw [g4, h4]
      have : ((2 : ℚ) ^ (-k).toNat) ≠ 0 := by positivity
      field_simp
    rw [Ratio.eq_of_value_eq g2 g3 hd hg hv]
  · subst hzero
    exact ⟨r, by simp [TuningInterval.add_octaves], by simp [TuningInterval.add_octaves]⟩
  · have e : k.toNat = k.natAbs := by omega
    obtain ⟨r1, h1, h2, h3, h4, h5, h6⟩ :=
      add_octaves_ratio_up (K := K) r k hd hpos hk'.2
        (by rw [e]; unfold InInt INT_MIN INT_MAX; constructor <;> nlinarith)
    have e2 : (- -k).toNat = k.natAbs := by omega
    obtain ⟨r2, g1, g2, g3, g4, _, _⟩ :=
      add_octaves_ratio_down (K := K) r1 (-k) h2 (by omega) (by omega)
        (by rw [e2]; unfold InInt INT_MIN INT_MAX; constructor <;> nlinarith)
    refine ⟨r1, h1, ?_⟩
    rw [g1]
    have hv : r2.value = r.value := by
      rw [g4, h4, e2, e]
      have : ((2 : ℚ) ^ k.natAbs) ≠ 0 := by positivity
      field_simp
    rw [Ratio.eq_of_value_eq g2 g3 hd hg hv]

/-- The round trip of `3/2` through two octaves down. -/
theorem add_octaves_round_trip_witness :
    ∃ r1, (TuningInterval.fromRatio ⟨3, 2⟩ : TuningInterval ℚ).add_octaves (-2)
        = Except.ok (TuningInterval.fromRatio r1) ∧
      (TuningInterval.fromRatio r1 : TuningInterval ℚ).add_octaves (- -2)
        = Except.ok (TuningInterval.fromRatio ⟨3, 2⟩) :=
  add_octaves_round_trip ⟨3, 2⟩ (-2) (by decide) (by decide) (by norm_num) (by decide)
    (by decide)

/-- C7, counterexample. The interval `1073741824/1` transposed up one octave overflows the
numerator, which wraps to `-2147483648`; transposing back down one octave then gives
`-1073741824/1`, not the original interval. -/
theorem round_trip_overflow_example :
    (TuningInterval.fromRatio ⟨1073741824, 1⟩ : TuningInterval ℚ).add_octaves 1
      = Except.ok (TuningInterval.fromRatio ⟨-2147483648, 1⟩) ∧
    (TuningInterval.fromRatio ⟨-2147483648, 1⟩ : TuningInterval ℚ).add_octaves (-1)
      = Except.ok (TuningInterval.fromRatio ⟨-1073741824, 1⟩) ∧
    (⟨-1073741824, 1⟩ : Ratio) ≠ ⟨1073741824, 1⟩ := by
  refine ⟨?_, ?_, by decide⟩
  · have hu : toUnsigned 1 = 1 := by decide
    have hp : powi 2 1 = 2 := by simpa using powi_two_of_le 1 (by norm_num)
    simp [TuningInterval.add_octaves, hu, hp, TuningInterval.ofNumerDenom, Ratio.make, wrap32,
      INT_MAX]
  · have hu : toUnsigned 1 = 1 := by decide
    have hp : powi 2 1 = 2 := by simpa using powi_two_of_le 1 (by norm_num)
    have hgcd : Int.gcd 2147483648 2 = 2 := by decide
    simp [TuningInterval.add_octaves, hu, hp, TuningInterval.ofNumerDenom, Ratio.make, wrap32,
      INT_MAX, hgcd]

/-! ## Periodicity -/

/-- One period further the same stored interval is transposed one octave more. -/
theorem add_octaves_succ {K : Type} [LinearOrderedField K] (stored : TuningInterval K) (o : Int)
    (h0 : stored.TransposeFits o) (h1 : stored.TransposeFits (o + 1)) :
    ∃ lo hi, stored.add_octaves o = Except.ok lo ∧ stored.add_octaves (o + 1) = Except.ok hi ∧
      hi.isRatio = lo.isRatio ∧ hi.OctaveAbove lo := by
  cases stored with
  | fromCents c =>
    have w0 : wrap32 (o * CENTS_PER_OCTAVE) = o * CENTS_PER_OCTAVE := wrap32_of_InInt h0
    have w1 : wrap32 ((o + 1) * CENTS_PER_OCTAVE) = (o + 1) * CENTS_PER_OCTAVE :=
      wrap32_of_InInt h1
    refine ⟨TuningInterval.fromCents (c + ((o * CENTS_PER_OCTAVE : Int) : K)),
      TuningInterval.fromCents (c + (((o + 1) * CENTS_PER_OCTAVE : Int) : K)), ?_, ?_, rfl, ?_⟩
    · simp only [TuningInterval.add_octaves, w0]
    · simp only [TuningInterval.add_octaves, w1]
    · show c + (((o + 1) * CENTS_PER_OCTAVE : Int) : K)
        = c + ((o * CENTS_PER_OCTAVE : Int) : K) + 1200
      unfold CENTS_PER_OCTAVE
      push_cast
      ring
  | fromRatio r =>
    obtain ⟨hd, hk0, hu0, hd0⟩ := h0
    obtain ⟨_, hk1, hu1, hd1⟩ := h1
    obtain ⟨r1, e1, v1⟩ := add_octaves_ratio_value (K := K) r o hd hk0 hu0 hd0
    obtain ⟨r2, e2, v2⟩ := add_octaves_ratio_value (K := K) r (o + 1) hd hk1 hu1 hd1
    refine ⟨_, _, e1, e2, rfl, ?_⟩
    unfold TuningInterval.OctaveAbove
    simp only
    rw [v2, v1, zpow_add_one₀ (by norm_num : (2 : ℚ) ≠ 0)]
    ring

/-- C2, amended. For a tuning with `N ≥ 1` stored intervals and an `int` index `k` with
`k ≠ 0` and `k + N ≠ 0` (with `k - 1` and `k + N` representable and the two transpositions of
the stored interval inside the range of `int`), `at(k + N)` has the same storage form as
`at(k)` and is exactly one octave above it: ratio value doubled for the Ratio form, cents
larger by 1200 for the Cents form (cents arithmetic being exact). -/
theorem at_periodic_away_from_unison {K : Type} [LinearOrderedField K] (S : Tuning K) (k : Int)
    (hN : 1 ≤ S.intervals.length) (hfit : (S.intervals.length : Int) ≤ INT_MAX)
    (hk0 : k ≠ 0) (hkN : k + (S.intervals.length : Int) ≠ 0)
    (hk : InInt k) (hk1 : InInt (k - 1)) (hkN1 : InInt (k + (S.intervals.length : Int)))
    (hfits : ∀ stored,
      S.intervals.get? (Int.toNat (Int.emod (k - 1) (S.intervals.length : Int))) = some stored →
      stored.TransposeFits (Int.fdiv (k - 1) (S.intervals.length : Int)) ∧
      stored.TransposeFits (Int.fdiv (k - 1) (S.intervals.length : Int) + 1)) :
    ∃ lo hi, S.at k = Except.ok lo ∧ S.at (k + (S.intervals.length : Int)) = Except.ok hi ∧
      hi.isRatio = lo.isRatio ∧ hi.OctaveAbove lo := by
  have hNpos : (0 : Int) < (S.intervals.length : Int) := by exact_mod_cast hN
  have hr0 : 0 ≤ Int.emod (k - 1) (S.intervals.length : Int) :=
    Int.emod_nonneg (k - 1) hNpos.ne'
  have hr1 : Int.emod (k - 1) (S.intervals.length : Int) < (S.intervals.length : Int) :=
    Int.emod_lt_of_pos (k - 1) hNpos
  obtain ⟨v, hget, hv⟩ := vector_at_of_lt S.intervals _ hr0 hr1
  obtain ⟨f0, f1⟩ := hfits v hget
  have hkN2 : InInt (k + (S.intervals.length : Int) - 1) := by
    unfold InInt INT_MIN INT_MAX at *
    constructor <;> omega
  have eidx : Int.emod (k + (S.intervals.length : Int) - 1) (S.intervals.length : Int)
      = Int.emod (k - 1) (S.intervals.length : Int) := by
    have : k + (S.intervals.length : Int) - 1 = (k - 1) + (S.intervals.length : Int) := by ring
    rw [this]
    exact Int.add_emod_self
  have eoct : Int.fdiv (k + (S.intervals.length : Int) - 1) (S.intervals.length : Int)
      = Int.fdiv (k - 1) (S.intervals.length : Int) + 1 := by
    have : k + (S.intervals.length : Int) - 1 = (k - 1) + (S.intervals.length : Int) := by ring
    rw [this, Int.fdiv_eq_ediv _ hNpos.le, Int.fdiv_eq_ediv _ hNpos.le]
    exact Int.add_ediv_of_dvd_right (dvd_refl _) |>.trans (by rw [Int.ediv_self hNpos.ne'])
  have a0 : S.at k = v.add_octaves (Int.fdiv (k - 1) (S.intervals.length : Int)) := by
    unfold Tuning.at
    rw [if_neg hk0, base_index_eq S k hN hfit hk0 hk1]
    simp only [hv, octave_eq S k hN hfit hk0 hk hk1]
  have a1 : S.at (k + (S.intervals.length : Int))
      = v.add_octaves (Int.fdiv (k - 1) (S.intervals.length : Int) + 1) := by
    unfold Tuning.at
    rw [if_neg hkN, base_index_eq S _ hN hfit hkN hkN2, eidx]
    simp only [hv, octave_eq S _ hN hfit hkN hkN1 hkN2, eoct]
  rw [a0, a1]
  exact add_octaves_succ v _ f0 f1

/-- Periodicity at index `5` of the tuning of the unit test, whose fifth interval is
`4/3`. -/
theorem at_periodic_away_from_unison_witness :
    ∃ lo hi, bremmer_ebvt3.at 5 = Except.ok lo ∧
      bremmer_ebvt3.at (5 + (bremmer_ebvt3.intervals.length : Int)) = Except.ok hi ∧
      hi.isRatio = lo.isRatio ∧ hi.OctaveAbove lo :=
  at_periodic_away_from_unison bremmer_ebvt3 5 (by decide) (by decide) (by decide) (by decide)
    (by decide) (by decide) (by decide)
    (by
      intro stored h
      have h4 : stored = TuningInterval.fromRatio ⟨4, 3⟩ := by
        have e : Int.toNat (Int.emod (5 - 1) (bremmer_ebvt3.intervals.length : Int)) = 4 := by
          decide
        rw [e] at h
        simpa [bremmer_ebvt3] using h.symm
      subst h4
      have e0 : Int.fdiv (5 - 1) (bremmer_ebvt3.intervals.length : Int) = 0 := by decide
      rw [e0]
      constructor
      · exact ⟨by decide, by norm_num, fun h => absurd h (by decide),
          fun h => absurd h (by decide)⟩
      · exact ⟨by decide, by norm_num, fun _ => by decide, fun h => absurd h (by decide)⟩)

/-- C2, counterexample. In a tuning stored in cents only, `at(0)` is the Ratio-form unison
while `at(0 + N)` is the last stored interval in Cents form: the storage forms differ. -/
theorem at_periodicity_fails_at_unison :
    fifth_and_octave.at 0 = Except.ok (TuningInterval.fromRatio ⟨1, 1⟩) ∧
    fifth_and_octave.at (0 + (fifth_and_octave.intervals.length : Int))
      = Except.ok (TuningInterval.fromCents 1200) ∧
    (TuningInterval.fromRatio ⟨1, 1⟩ : TuningInterval ℚ).isRatio
      ≠ (TuningInterval.fromCents 1200 : TuningInterval ℚ).isRatio := by
  refine ⟨?_, ?_, by decide⟩
  · simp [Tuning.at, TuningInterval.ofNumerDenom, Ratio.make, INT_MAX]
  · have e1 : Int.tmod 1 2 = 1 := by decide
    have e2 : Int.tdiv 1 2 = 0 := by decide
    simp [Tuning.at, fifth_and_octave, Tuning.base_index, Tuning.degree, euclidean_remainder,
      INT_MIN, wrap32, vector_at, Tuning.octave, TuningInterval.add_octaves, CENTS_PER_OCTAVE, e1, e2]


/-! ## The Farey search without wrap-around -/

theorem toU64_of_nonneg {a : Int} (h0 : 0 ≤ a) (h1 : a ≤ INT_MAX) : toU64 a = a.toNat := by
  unfold toU64
  unfold INT_MAX at h1
  rw [Int.emod_eq_of_lt h0 (by omega)]

theorem addU64_of_nonneg {a c : Int} (ha : 0 ≤ a) (hc : 0 ≤ c) (ha1 : a ≤ INT_MAX)
    (hc1 : c ≤ INT_MAX) : addU64 (toU64 a) (toU64 c) = (a + c).toNat := by
  rw [toU64_of_nonneg ha ha1, toU64_of_nonneg hc hc1]
  unfold addU64
  unfold INT_MAX at ha1 hc1
  omega

/-- Leaving the loop: one of the denominators exceeds the bound. -/
theorem fareyLoop_exit {K : Type} [LinearOrderedField K] (x : K) (max_denom : Int) (fuel : Nat)
    (a b c d : Int) (h : ¬(b ≤ max_denom ∧ d ≤ max_denom)) :
    fareyLoop x max_denom fuel a b c d
      = if b > max_denom then some (Ratio.make c d) else some (Ratio.make a b) := by
  unfold fareyLoop
  rw [if_neg h]

/-- One iteration of the loop when no sum leaves the range of `int`: the tests on the
mediant are the cross-multiplied comparisons and the updates are exact sums. -/
theorem fareyLoop_step {K : Type} [LinearOrderedField K] (x : K) (max_denom : Int) (fuel : Nat)
    (a b c d : Int) (ha : 0 ≤ a) (hb : 0 ≤ b) (hc : 0 ≤ c) (hd : 0 ≤ d) (hpos : 0 < b + d)
    (hac : a + c ≤ INT_MAX) (hbd : b + d ≤ INT_MAX)
    (hcond : b ≤ max_denom ∧ d ≤ max_denom) :
    fareyLoop x max_denom (fuel + 1) a b c d =
      if x * ((b + d : Int) : K) = ((a + c : Int) : K) then
        (if b + d ≤ max_denom then some (Ratio.make (a + c) (b + d))
          else if d > b then some (Ratio.make c d) else some (Ratio.make a b))
      else if ((a + c : Int) : K) < x * ((b + d : Int) : K) then
        fareyLoop x max_denom fuel (a + c) (b + d) c d
      else fareyLoop x max_denom fuel a b (a + c) (b + d) := by
  have hIac : InInt (a + c) := by unfold InInt INT_MIN; constructor <;> omega
  have hIbd : InInt (b + d) := by unfold InInt INT_MIN; constructor <;> omega
  have e1 : addU64 (toU64 a) (toU64 c) = (a + c).toNat :=
    addU64_of_nonneg ha hc (by omega) (by omega)
  have e2 : addU64 (toU64 b) (toU64 d) = (b + d).toNat :=
    addU64_of_nonneg hb hd (by omega) (by omega)
  have hne : (b + d).toNat ≠ 0 := by omega
  have c1 : (((a + c).toNat : Nat) : K) = ((a + c : Int) : K) := by
    have : (((a + c).toNat : Nat) : Int) = a + c := Int.toNat_of_nonneg (by omega)
    exact_mod_cast congrArg (fun z : Int => (z : K)) this
  have c2 : (((b + d).toNat : Nat) : K) = ((b + d : Int) : K) := by
    have : (((b + d).toNat : Nat) : Int) = b + d := Int.toNat_of_nonneg (by omega)
    exact_mod_cast congrArg (fun z : Int => (z : K)) this
  have hposK : (0 : K) < ((b + d : Int) : K) := by exact_mod_cast hpos
  have heq : mediant_equal x (a + c).toNat (b + d).toNat
      = decide (x * ((b + d : Int) : K) = ((a + c : Int) : K)) := by
    unfold mediant_equal
    rw [if_neg hne, c1, c2]
    congr 1
    rw [eq_div_iff hposK.ne']
  have hlt : mediant_below x (a + c).toNat (b + d).toNat
      = decide (((a + c : Int) : K) < x * ((b + d : Int) : K)) := by
    unfold mediant_below
    rw [if_neg hne, c1, c2]
    congr 1
    rw [gt_iff_lt, div_lt_iff₀ hposK]
  rw [fareyLoop, if_pos hcond]
  simp only [e1, e2, heq, hlt, wrap32_of_InInt hIac, wrap32_of_InInt hIbd, add_comm c a,
    add_comm d b, decide_eq_true_eq]

/-- More fuel does not change a result already returned. -/
theorem fareyLoop_fuel_succ {K : Type} [LinearOrderedField K] (x : K) (max_denom : Int) :
    ∀ (fuel : Nat) (a b c d : Int) (r : Except Error Ratio),
      fareyLoop x max_denom fuel a b c d = some r →
      fareyLoop x max_denom (fuel + 1) a b c d = some r := by
  intro fuel
  induction fuel with
  | zero =>
    intro a b c d r h
    by_cases hcond : b ≤ max_denom ∧ d ≤ max_denom
    · rw [fareyLoop, if_pos hcond] at h
      cases h
    · rw [fareyLoop_exit _ _ _ _ _ _ _ hcond] at h ⊢
      exact h
  | succ n ih =>
    intro a b c d r h
    by_cases hcond : b ≤ max_denom ∧ d ≤ max_denom
    · rw [fareyLoop, if_pos hcond] at h ⊢
      simp only at h ⊢
      split_ifs at h ⊢ with e1 e2 e3 e4
      · exact h
      · exact h
      · exact h
      · exact ih _ _ _ _ _ h
      · exact ih _ _ _ _ _ h
    · rw [fareyLoop_exit _ _ _ _ _ _ _ hcond] at h ⊢
      exact h

theorem fareyLoop_fuel_mono {K : Type} [LinearOrderedField K] (x : K) (max_denom : Int)
    (fuel extra : Nat) (a b c d : Int) (r : Except Error Ratio)
    (h : fareyLoop x max_denom fuel a b c d = some r) :
    fareyLoop x max_denom (fuel + extra) a b c d = some r := by
  induction extra with
  | zero => exact h
  | succ n ih => exact fareyLoop_fuel_succ x max_denom _ a b c d r ih

theorem gcd_eq_one_of_comb {m n u v : Int} (h : u * m + v * n = 1) : Int.gcd m n = 1 :=
  Int.isCoprime_iff_gcd_eq_one.1 ⟨u, v, h⟩

theorem FareyInv.gcd_left {a b c d : Int} (h : FareyInv a b c d) : Int.gcd a b = 1 := by
  obtain ⟨_, _, _, _, _, _, h7⟩ := h
  exact gcd_eq_one_of_comb (u := -d) (v := c) (by linarith)

theorem FareyInv.gcd_right {a b c d : Int} (h : FareyInv a b c d) : Int.gcd c d = 1 := by
  obtain ⟨_, _, _, _, _, _, h7⟩ := h
  exact gcd_eq_one_of_comb (u := b) (v := -a) (by linarith)

theorem FareyInv.gcd_mediant {a b c d : Int} (h : FareyInv a b c d) :
    Int.gcd (a + c) (b + d) = 1 := by
  obtain ⟨_, _, _, _, _, _, h7⟩ := h
  exact gcd_eq_one_of_comb (u := -d) (v := c) (by linarith)

theorem FareyInv.lower {a b c d : Int} (h : FareyInv a b c d) :
    FareyInv (a + c) (b + d) c d := by
  obtain ⟨h1, h2, h3, h4, h5, h6, h7⟩ := h
  exact ⟨by omega, by omega, h3, h4, by omega, h6, by linarith⟩

theorem FareyInv.upper {a b c d : Int} (h : FareyInv a b c d) :
    FareyInv a b (a + c) (b + d) := by
  obtain ⟨h1, h2, h3, h4, h5, h6, h7⟩ := h
  exact ⟨h1, h2, by omega, by omega, h5, by omega, by linarith⟩

/-- Neighbouring fractions do not both have the denominator `2^30`. -/
theorem FareyInv.sum_le {a b c d max_denom : Int} (h : FareyInv a b c d)
    (hmax : max_denom ≤ 1073741824) (hb : b ≤ max_denom) (hd : d ≤ max_denom) :
    b + d ≤ INT_MAX := by
  obtain ⟨h1, h2, h3, h4, h5, h6, h7⟩ := h
  unfold INT_MAX
  by_contra hc
  have hbe : b = 1073741824 := by omega
  have hde : d = 1073741824 := by omega
  rw [hbe, hde] at h7
  omega

/-- The search started on neighbouring fractions, with a bound of at most `2^30`, returns
after at most `max_denom + 1 - max b d` iterations a fraction in lowest terms between `0`
and `1` whose denominator is within the bound. -/
theorem fareyLoop_returns {K : Type} [LinearOrderedField K] (x : K) (max_denom : Int)
    (h2 : max_denom ≤ 1073741824) :
    ∀ (n : Nat) (a b c d : Int), FareyInv a b c d → (b ≤ max_denom ∨ d ≤ max_denom) →
      max_denom + 1 - max b d ≤ (n : Int) →
      ∃ r, fareyLoop x max_denom n a b c d = some (Except.ok r) ∧
        1 ≤ r.den ∧ r.den ≤ max_denom ∧ Int.gcd r.num r.den = 1 ∧ 0 ≤ r.num ∧
        r.num ≤ r.den := by
  intro n
  induction n with
  | zero =>
    intro a b c d hinv hor hn
    obtain ⟨i1, i2, i3, i4, i5, i6, i7⟩ := id hinv
    have hncond : ¬(b ≤ max_denom ∧ d ≤ max_denom) := by
      rintro ⟨hb, hd⟩
      have := max_le hb hd
      simp only [Nat.cast_zero] at hn
      omega
    rw [fareyLoop_exit x max_denom 0 a b c d hncond]
    by_cases hb : b > max_denom
    · rw [if_pos hb, Ratio.make_of_normal c d (by omega) hinv.gcd_right]
      exact ⟨⟨c, d⟩, rfl, i4, by show d ≤ max_denom; omega, hinv.gcd_right, i3, i6⟩
    · rw [if_neg hb, Ratio.make_of_normal a b (by omega) hinv.gcd_left]
      exact ⟨⟨a, b⟩, rfl, i2, by show b ≤ max_denom; omega, hinv.gcd_left, i1, i5⟩
  | succ n ih =>
    intro a b c d hinv hor hn
    obtain ⟨i1, i2, i3, i4, i5, i6, i7⟩ := id hinv
    by_cases hcond : b ≤ max_denom ∧ d ≤ max_denom
    · have hsum : b + d ≤ INT_MAX := hinv.sum_le h2 hcond.1 hcond.2
      rw [fareyLoop_step x max_denom n a b c d i1 (by omega) i3 (by omega) (by omega)
        (by omega) hsum hcond]
      have hmax : max b d + 1 ≤ b + d := by
        rcases max_cases b d with ⟨e, _⟩ | ⟨e, _⟩ <;> rw [e] <;> omega
      split_ifs with e1 e2 e3 e4
      · rw [Ratio.make_of_normal _ _ (by omega) hinv.gcd_mediant]
        exact ⟨⟨a + c, b + d⟩, rfl, by show 1 ≤ b + d; omega, e2, hinv.gcd_mediant,
          by show 0 ≤ a + c; omega, by show a + c ≤ b + d; omega⟩
      · rw [Ratio.make_of_normal c d (by omega) hinv.gcd_right]
        exact ⟨⟨c, d⟩, rfl, i4, hcond.2, hinv.gcd_right, i3, i6⟩
      · rw [Ratio.make_of_normal a b (by omega) hinv.gcd_left]
        exact ⟨⟨a, b⟩, rfl, i2, hcond.1, hinv.gcd_left, i1, i5⟩
      · apply ih _ _ _ _ hinv.lower (Or.inr hcond.2)
        have : b + d ≤ max (b + d) d := le_max_left _ _
        push_cast at hn
        omega
      · apply ih _ _ _ _ hinv.upper (Or.inl hcond.1)
        have : b + d ≤ max b (b + d) := le_max_right _ _
        push_cast at hn
        omega
    · rw [fareyLoop_exit x max_denom _ a b c d hcond]
      by_cases hb : b > max_denom
      · rw [if_pos hb, Ratio.make_of_normal c d (by omega) hinv.gcd_right]
        exact ⟨⟨c, d⟩, rfl, i4, by show d ≤ max_denom; omega, hinv.gcd_right, i3, i6⟩
      · rw [if_neg hb, Ratio.make_of_normal a b (by omega) hinv.gcd_left]
        exact ⟨⟨a, b⟩, rfl, i2, by show b ≤ max_denom; omega, hinv.gcd_left, i1, i5⟩

theorem fareyInv_init : FareyInv 0 1 1 1 := by
  unfold FareyInv
  decide

/-- The search with a bound between `1` and `2^30` returns within `max_denom` iterations. -/
theorem farey_returns {K : Type} [LinearOrderedField K] (x : K) (max_denom : Int)
    (h1 : 1 ≤ max_denom) (h2 : max_denom ≤ 1073741824) :
    ∃ r, farey max_denom.toNat x max_denom = some (Except.ok r) ∧
      1 ≤ r.den ∧ r.den ≤ max_denom ∧ Int.gcd r.num r.den = 1 ∧ 0 ≤ r.num ∧ r.num ≤ r.den := by
  unfold farey
  apply fareyLoop_returns x max_denom h2 _ _ _ _ _ fareyInv_init (Or.inl h1)
  have : max (1 : Int) 1 = 1 := max_self 1
  rw [this]
  omega

/-! ## Bounded denominator -/

theorem trunc_of_nonneg {K : Type} [LinearOrderedField K] [FloorRing K] {y : K} (hy : 0 ≤ y) :
    trunc y = Int.floor y := by
  unfold trunc
  rw [if_pos hy]

/-- C5, amended. For every bound with `1 ≤ max_denom ≤ 2^30` and every `x`, `farey(x,
max_denom)` returns, within `max_denom` iterations, a fraction whose denominator `q`
satisfies `1 ≤ q ≤ max_denom`.  Consequently, for every `y ≥ 0` whose integral part fits in
`int`, the fractional part lies in `[0, 1)` and `closest_rational(y)` is
`trunc(y) + farey(y - trunc(y), 200)`, a rational whose denominator, and so whose reduced
denominator, is between `1` and `200` (with value `trunc(y)` plus the fraction, in lowest
terms, when the numerator does not overflow); this is what `ratio()` returns for a
Cents-form interval. -/
theorem farey_den_bounded {K : Type} [LinearOrderedField K] [FloorRing K]
    (max_denom : Int) (x y : K) (h1 : 1 ≤ max_denom) (h2 : max_denom ≤ 1073741824)
    (hy : 0 ≤ y) (hfit : InInt (trunc y)) :
    (∃ r, farey max_denom.toNat x max_denom = some (Except.ok r) ∧
      1 ≤ r.den ∧ r.den ≤ max_denom) ∧
    (0 ≤ y - (trunc y : K) ∧ y - (trunc y : K) < 1 ∧
      ∃ r R, farey 200 (y - (trunc y : K)) 200 = some (Except.ok r) ∧
        closest_rational 200 y = some (Except.ok R) ∧
        R = Ratio.addInt (trunc y) r ∧
        1 ≤ R.den ∧ R.den ≤ 200 ∧ R.den / (Int.gcd R.num R.den : Int) ≤ 200 ∧
        (trunc y * 200 + 200 ≤ INT_MAX →
          R.value = (trunc y : ℚ) + r.value ∧ Int.gcd R.num R.den = 1)) ∧
    (∀ (pow2 : K → K) (c : K), cents_to_ratio_as_double pow2 c = y →
      (TuningInterval.fromCents c).ratio pow2 200 = closest_rational 200 y) := by
  refine ⟨?_, ?_, ?_⟩
  · obtain ⟨r, hr, g1, g2, _⟩ := farey_returns x max_denom h1 h2
    exact ⟨r, hr, g1, g2⟩
  · have htr := trunc_of_nonneg hy
    have hfl0 : 0 ≤ Int.floor y := Int.floor_nonneg.2 hy
    refine ⟨?_, ?_, ?_⟩
    · rw [htr]; exact sub_nonneg.2 (Int.floor_le y)
    · rw [htr]; have := Int.lt_floor_add_one y; linarith
    · obtain ⟨r, hr, g1, g2, g3, g4, g5⟩ :=
        farey_returns (y - (trunc y : K)) 200 (by norm_num) (by norm_num)
      have e200 : (200 : Int).toNat = 200 := rfl
      rw [e200] at hr
      refine ⟨r, Ratio.addInt (trunc y) r, hr, ?_, rfl, g1, g2, ?_, ?_⟩
      · unfold closest_rational
        simp only [wrap32_of_InInt hfit, hr]
      · show r.den / _ ≤ 200
        have : r.den / ((Int.gcd (Ratio.addInt (trunc y) r).num
            (Ratio.addInt (trunc y) r).den : Nat) : Int) ≤ r.den :=
          Int.ediv_le_self _ (by omega)
        omega
      · intro hsmall
        rw [htr] at hsmall ⊢
        unfold INT_MAX at hsmall
        have hprod : 0 ≤ Int.floor y * r.den ∧ Int.floor y * r.den ≤ Int.floor y * 200 := by
          constructor
          · exact mul_nonneg hfl0 (by omega)
          · exact mul_le_mul_of_nonneg_left g2 hfl0
        have w1 : wrap32 (Int.floor y * r.den) = Int.floor y * r.den :=
          wrap32_of_InInt (by unfold InInt INT_MIN INT_MAX; constructor <;> omega)
        have w2 : wrap32 (r.num + Int.floor y * r.den) = r.num + Int.floor y * r.den :=
          wrap32_of_InInt (by unfold InInt INT_MIN INT_MAX; constructor <;> omega)
        unfold Ratio.addInt
        simp only [w1, w2]
        constructor
        · unfold Ratio.value
          have hden : (r.den : ℚ) ≠ 0 := by exact_mod_cast (by omega : r.den ≠ 0)
          push_cast
          field_simp
          ring
        · show Int.gcd (r.num + Int.floor y * r.den) r.den = 1
          obtain ⟨u, v, huv⟩ := Int.isCoprime_iff_gcd_eq_one.2 g3
          exact gcd_eq_one_of_comb (u := u) (v := v - u * Int.floor y) (by linear_combination huv)
  · intro pow2 c hc
    show closest_rational 200 (cents_to_ratio_as_double pow2 c) = _
    rw [hc]

/-- The denominator bound at `max_denom = 200`, `x = 1/3` and `y = 7/3`. -/
theorem farey_den_bounded_witness :
    ∃ r, farey (200 : Int).toNat (1 / 3 : ℚ) 200 = some (Except.ok r) ∧
      1 ≤ r.den ∧ r.den ≤ 200 :=
  (farey_den_bounded 200 (1 / 3 : ℚ) (7 / 3 : ℚ) (by decide) (by decide) (by norm_num)
    (by
      have e : trunc (7 / 3 : ℚ) = 2 := by
        rw [trunc_of_nonneg (by norm_num), Int.floor_eq_iff]
        norm_num
      rw [e]
      decide)).1

/-! ## Exact recovery -/

/-- A fraction `p/q` strictly between the neighbours `a/b` and `c/d` has `q ≥ b + d`, and
`q = b + d` only for the mediant. -/
theorem between_neighbours {a b c d p q : Int} (h7 : b * c - a * d = 1)
    (hlo : a * q < p * b) (hhi : p * d < c * q) (hb : 1 ≤ b) (hd : 1 ≤ d) (ha : 0 ≤ a)
    (hc : 0 ≤ c) :
    b + d ≤ q ∧ a + c ≤ p := by
  have hq : q = b * (c * q - p * d) + d * (p * b - a * q) := by
    have : b * (c * q - p * d) + d * (p * b - a * q) = (b * c - a * d) * q := by ring
    rw [this, h7, one_mul]
  have hp : p = c * (p * b - a * q) + a * (c * q - p * d) := by
    have : c * (p * b - a * q) + a * (c * q - p * d) = (b * c - a * d) * p := by ring
    rw [this, h7, one_mul]
  have hu : 1 ≤ c * q - p * d := by omega
  have hv : 1 ≤ p * b - a * q := by omega
  constructor
  · nlinarith
  · nlinarith

/-- The search for a fraction `p/q` in lowest terms strictly inside `(a/b, c/d)` finds it. -/
theorem fareyLoop_interior {K : Type} [LinearOrderedField K] (max_denom p q : Int)
    (hq : 0 < q) (hqm : q ≤ max_denom) (hmax : max_denom ≤ INT_MAX) (hpq : p ≤ q)
    (hg : Int.gcd p q = 1) :
    ∀ (n : Nat) (a b c d : Int), 0 ≤ a → 1 ≤ b → 0 ≤ c → 1 ≤ d → b * c - a * d = 1 →
      a * q < p * b → p * d < c * q → q - (b + d) + 1 ≤ (n : Int) →
      fareyLoop ((p : K) / (q : K)) max_denom n a b c d = some (Except.ok ⟨p, q⟩) := by
  have hqK : (0 : K) < (q : K) := by exact_mod_cast hq
  intro n
  induction n with
  | zero =>
    intro a b c d ha hb hc hd h7 hlo hhi hn
    have := (between_neighbours h7 hlo hhi hb hd ha hc).1
    simp only [Nat.cast_zero] at hn
    omega
  | succ n ih =>
    intro a b c d ha hb hc hd h7 hlo hhi hn
    obtain ⟨hbd, hac⟩ := between_neighbours h7 hlo hhi hb hd ha hc
    rw [fareyLoop_step _ max_denom n a b c d ha (by omega) hc (by omega) (by omega)
      (by omega) (by omega) ⟨by omega, by omega⟩]
    have e1 : ((p : K) / (q : K)) * ((b + d : Int) : K) = ((a + c : Int) : K)
        ↔ p * (b + d) = (a + c) * q := by
      rw [div_mul_eq_mul_div, div_eq_iff hqK.ne']
      exact_mod_cast Iff.rfl
    have e2 : ((a + c : Int) : K) < ((p : K) / (q : K)) * ((b + d : Int) : K)
        ↔ (a + c) * q < p * (b + d) := by
      rw [div_mul_eq_mul_div, lt_div_iff₀ hqK]
      exact_mod_cast Iff.rfl
    simp only [e1, e2]
    by_cases heq : p * (b + d) = (a + c) * q
    · rw [if_pos heq]
      -- the common value of the two cross products divides p and q
      have huv : c * q - p * d = p * b - a * q := by linarith
      have hq2 : q = (b + d) * (c * q - p * d) := by
        have : (b + d) * (c * q - p * d) = b * (c * q - p * d) + d * (p * b - a * q) := by
          rw [← huv]; ring
        rw [this]
        have : b * (c * q - p * d) + d * (p * b - a * q) = (b * c - a * d) * q := by ring
        rw [this, h7, one_mul]
      have hp2 : p = (a + c) * (c * q - p * d) := by
        have : (a + c) * (c * q - p * d) = c * (p * b - a * q) + a * (c * q - p * d) := by
          rw [← huv]; ring
        rw [this]
        have : c * (p * b - a * q) + a * (c * q - p * d) = (b * c - a * d) * p := by ring
        rw [this, h7, one_mul]
      have hu : 1 ≤ c * q - p * d := by omega
      have hdvd : (c * q - p * d) ∣ ((Int.gcd p q : Nat) : Int) :=
        Int.dvd_gcd (Dvd.intro_left _ hp2.symm) (Dvd.intro_left _ hq2.symm)
      rw [hg] at hdvd
      have hone : c * q - p * d = 1 := Int.eq_one_of_dvd_one (by omega) hdvd
      rw [hone, mul_one] at hq2 hp2
      rw [if_pos (by omega), ← hq2, ← hp2, Ratio.make_of_normal p q hq hg]
    · rw [if_neg heq]
      by_cases hlt : (a + c) * q < p * (b + d)
      · rw [if_pos hlt]
        refine ih _ _ _ _ (by omega) (by omega) hc hd (by linarith) (by linarith) hhi ?_
        push_cast at hn
        omega
      · rw [if_neg hlt]
        have hgt : p * (b + d) < (a + c) * q := lt_of_le_of_ne (not_lt.1 hlt) heq
        refine ih _ _ _ _ ha hb (by omega) (by omega) (by linarith) hlo (by linarith) ?_
        push_cast at hn
        omega

/-- The search for `0` walks down through `1/d` and leaves the loop with `0/1`. -/
theorem fareyLoop_zero {K : Type} [LinearOrderedField K] (max_denom : Int)
    (h1 : 1 ≤ max_denom) (hmax : max_denom + 1 ≤ INT_MAX) :
    ∀ (n : Nat) (d : Int), 1 ≤ d → d ≤ max_denom + 1 → max_denom + 1 - d ≤ (n : Int) →
      fareyLoop (0 : K) max_denom n 0 1 1 d = some (Except.ok ⟨0, 1⟩) := by
  have hexit : ∀ (n : Nat) (d : Int), max_denom < d →
      fareyLoop (0 : K) max_denom n 0 1 1 d = some (Except.ok ⟨0, 1⟩) := by
    intro n d hd
    rw [fareyLoop_exit _ _ _ _ _ _ _ (by omega), if_neg (by omega)]
    rfl
  intro n
  induction n with
  | zero =>
    intro d hd1 hd2 hn
    simp only [Nat.cast_zero] at hn
    exact hexit 0 d (by omega)
  | succ n ih =>
    intro d hd1 hd2 hn
    by_cases hd : max_denom < d
    · exact hexit _ d hd
    · rw [fareyLoop_step _ max_denom n 0 1 1 d le_rfl (by omega) (by omega) (by omega)
        (by omega) (by unfold INT_MAX; omega) (by omega) ⟨h1, by omega⟩]
      have hne : ¬((0 : K) * ((1 + d : Int) : K) = (((0 : Int) + 1 : Int) : K)) := by
        simp
      have hnlt : ¬((((0 : Int) + 1 : Int) : K) < (0 : K) * ((1 + d : Int) : K)) := by
        simp
      rw [if_neg hne, if_neg hnlt]
      have : (0 : Int) + 1 = 1 := by norm_num
      rw [this]
      apply ih (1 + d) (by omega) (by omega)
      push_cast at hn
      omega

/-- The search for an `x` above `max_denom / (max_denom + 1)` walks up through `(b-1)/b`
and leaves the loop with `1/1`. -/
theorem fareyLoop_near_one {K : Type} [LinearOrderedField K] (x : K) (max_denom : Int)
    (h1 : 1 ≤ max_denom) (hmax : max_denom + 1 ≤ INT_MAX)
    (hx : (max_denom : K) < x * ((max_denom + 1 : Int) : K)) :
    ∀ (n : Nat) (b : Int), 1 ≤ b → b ≤ max_denom + 1 → max_denom + 1 - b ≤ (n : Int) →
      fareyLoop x max_denom n (b - 1) b 1 1 = some (Except.ok ⟨1, 1⟩) := by
  have hexit : ∀ (n : Nat) (b : Int), max_denom < b →
      fareyLoop x max_denom n (b - 1) b 1 1 = some (Except.ok ⟨1, 1⟩) := by
    intro n b hb
    rw [fareyLoop_exit _ _ _ _ _ _ _ (by omega), if_pos (by omega)]
    rfl
  intro n
  induction n with
  | zero =>
    intro b hb1 hb2 hn
    simp only [Nat.cast_zero] at hn
    exact hexit 0 b (by omega)
  | succ n ih =>
    intro b hb1 hb2 hn
    by_cases hb : max_denom < b
    · exact hexit _ b hb
    · rw [fareyLoop_step _ max_denom n (b - 1) b 1 1 (by omega) (by omega) (by omega)
        (by omega) (by omega) (by omega) (by omega) ⟨by omega, h1⟩]
      have e : b - 1 + 1 = b := by ring
      rw [e]
      have hlt : ((b : Int) : K) < x * ((b + 1 : Int) : K) := by
        have hbK : ((b : Int) : K) ≤ (max_denom : K) := by exact_mod_cast (by omega : b ≤ max_denom)
        have hb0 : (0 : K) ≤ ((b : Int) : K) := by exact_mod_cast (by omega : (0 : Int) ≤ b)
        push_cast at hx ⊢
        rcases le_or_lt 1 x with h | h
        · nlinarith
        · nlinarith [mul_nonneg (sub_nonneg.2 h.le) (sub_nonneg.2 hbK)]
      rw [if_neg (ne_of_gt hlt), if_pos hlt]
      have := ih (b + 1) (by omega) (by omega) (by push_cast at hn; omega)
      rw [show b + 1 - 1 = b by ring] at this
      exact this

/-- C4, amended. For every bound `max_denom` with `1 ≤ max_denom < INT_MAX` and every fraction
`p/q` in lowest terms with `0 ≤ p/q ≤ 1` and `q ≤ max_denom`, `farey(p/q, max_denom)` returns
exactly `p/q`, after at most `max_denom` iterations of its loop (`x` being the exact rational
and the mediant test the exact comparison). -/
theorem farey_exact_recovery {K : Type} [LinearOrderedField K] (max_denom p q : Int)
    (h1 : 1 ≤ max_denom) (hmax : max_denom + 1 ≤ INT_MAX)
    (hq : 0 < q) (hqm : q ≤ max_denom) (hp0 : 0 ≤ p) (hpq : p ≤ q) (hg : Int.gcd p q = 1) :
    farey max_denom.toNat ((p : K) / (q : K)) max_denom = some (Except.ok ⟨p, q⟩) := by
  unfold farey
  rcases eq_or_lt_of_le hp0 with hp | hp
  · -- p = 0, hence q = 1
    subst hp
    have hq1 : q = 1 := by
      rw [Int.gcd_zero_left] at hg
      omega
    subst hq1
    simp only [Int.cast_zero, zero_div]
    exact fareyLoop_zero max_denom h1 hmax _ 1 le_rfl (by omega) (by omega)
  · rcases eq_or_lt_of_le hpq with hpe | hplt
    · -- p = q, hence both are 1
      subst hpe
      have hp1 : p = 1 := by
        rw [Int.gcd_self] at hg
        omega
      subst hp1
      simp only [Int.cast_one, div_one]
      exact fareyLoop_near_one 1 max_denom h1 hmax (by push_cast; linarith) _ 1 le_rfl
        (by omega) (by omega)
    · exact fareyLoop_interior max_denom p q hq hqm (by omega) hpq hg _ 0 1 1 1 le_rfl le_rfl
        (by omega) le_rfl (by norm_num) (by omega) (by omega) (by omega)

/-- C3, failing input. For `x = 0.996` the search `farey(x, 200)` returns `1/1`, although
`199/200`, whose denominator is within the bound, is strictly closer to `x`: the returned
fraction is not a best approximation. -/
theorem farey_not_closest :
    farey 200 (249 / 250 : ℚ) 200 = some (Except.ok ⟨1, 1⟩) ∧
    |(249 / 250 : ℚ) - (⟨199, 200⟩ : Ratio).value|
      < |(249 / 250 : ℚ) - (⟨1, 1⟩ : Ratio).value| := by
  constructor
  · exact fareyLoop_near_one (249 / 250 : ℚ) 200 (by norm_num) (by decide) (by norm_num) 200 1
      le_rfl (by norm_num) (by norm_num)
  · have e1 : (249 / 250 : ℚ) - (⟨199, 200⟩ : Ratio).value = 1 / 1000 := by
      unfold Ratio.value
      norm_num
    have e2 : (249 / 250 : ℚ) - (⟨1, 1⟩ : Ratio).value = -(1 / 250) := by
      unfold Ratio.value
      norm_num
    rw [e1, e2, abs_neg, abs_of_pos (by norm_num), abs_of_pos (by norm_num)]
    norm_num

/-! ## The search at the largest bound -/

/-- With the bound `INT_MAX` the search for `0` never leaves the loop by its condition:
the denominator `d` runs through every non-zero `int`, wrapping around after `INT_MAX`, until
the divisor `1 + d` is zero in `uint64_t` and the constructor is called with denominator
zero. -/
theorem fareyLoop_zero_wraps {K : Type} [LinearOrderedField K] :
    ∀ (fuel : Nat) (d : Int), d ≠ 0 → InInt d →
      fareyLoop (0 : K) INT_MAX fuel 0 1 1 d = none ∨
      fareyLoop (0 : K) INT_MAX fuel 0 1 1 d = some (Except.error Error.bad_rational) := by
  intro fuel
  induction fuel with
  | zero =>
    intro d _ hd
    left
    rw [fareyLoop, if_pos ⟨by decide, hd.2⟩]
  | succ fuel ih =>
    intro d hd0 hd
    rw [fareyLoop, if_pos ⟨by decide, hd.2⟩]
    have e1 : addU64 (toU64 0) (toU64 1) = 1 := by decide
    simp only [e1]
    by_cases hm : d = -1
    · subst hm
      right
      have e2 : addU64 (toU64 1) (toU64 (-1)) = 0 := by decide
      have e3 : mediant_equal (0 : K) 1 0 = true := by simp [mediant_equal]
      have e4 : wrap32 (1 + -1) = 0 := by decide
      have e5 : wrap32 (0 + 1) = 1 := by decide
      rw [e2, e3, e4, e5]
      simp [Ratio.make, INT_MAX]
    · have hpos : 0 < addU64 (toU64 1) (toU64 d) := by
        unfold addU64 toU64
        unfold InInt INT_MIN INT_MAX at hd
        omega
      have hK : (0 : K) < ((addU64 (toU64 1) (toU64 d) : Nat) : K) := by exact_mod_cast hpos
      have hmed : (0 : K) < ((1 : Nat) : K) / ((addU64 (toU64 1) (toU64 d) : Nat) : K) := by
        apply div_pos _ hK
        norm_num
      have e3 : mediant_equal (0 : K) 1 (addU64 (toU64 1) (toU64 d)) = false := by
        unfold mediant_equal
        rw [if_neg hpos.ne']
        exact decide_eq_false hmed.ne
      have e4 : mediant_below (0 : K) 1 (addU64 (toU64 1) (toU64 d)) = false := by
        unfold mediant_below
        rw [if_neg hpos.ne']
        exact decide_eq_false (not_lt.2 hmed.le)
      have e5 : wrap32 (1 + 0) = 1 := by decide
      rw [e3, e4, e5]
      simp only [Bool.false_eq_true, if_false]
      apply ih _ _ (wrap32_InInt _)
      unfold wrap32
      unfold InInt INT_MIN INT_MAX at hd
      omega

/-- Exact recovery of `1/3` with `max_denom = 200`. -/
theorem farey_exact_recovery_witness :
    farey (200 : Int).toNat (((1 : Int) : ℚ) / ((3 : Int) : ℚ)) 200
      = some (Except.ok ⟨1, 3⟩) :=
  farey_exact_recovery 200 1 3 (by decide) (by decide) (by decide) (by decide) (by decide)
    (by decide) (by decide)

/-- C4, counterexample. The fraction `0/1` is in lowest terms with denominator `1` within the
bound `max_denom = INT_MAX`, yet `farey(0, INT_MAX)` never returns `0/1`: the denominator
`d` wraps around after `INT_MAX` and the loop ends by raising `bad_rational`. -/
theorem farey_zero_not_recovered_at_INT_MAX :
    (0 : Int) ≤ 1 ∧ Int.gcd 0 1 = 1 ∧ (1 : Int) ≤ 2147483647 ∧
    ∀ fuel : Nat,
      farey fuel (((0 : Int) : ℚ) / ((1 : Int) : ℚ)) 2147483647 ≠ some (Except.ok ⟨0, 1⟩) := by
  refine ⟨by decide, by decide, by decide, ?_⟩
  intro fuel h
  have hx : (((0 : Int) : ℚ) / ((1 : Int) : ℚ)) = 0 := by norm_num
  rw [hx] at h
  rcases fareyLoop_zero_wraps (K := ℚ) fuel 1 (by decide) (by decide) with h0 | h0
  · unfold farey at h
    have e : (2147483647 : Int) = INT_MAX := rfl
    rw [e, h0] at h
    cases h
  · unfold farey at h
    have e : (2147483647 : Int) = INT_MAX := rfl
    rw [e, h0] at h
    cases h

/-- C5, counterexample. For `max_denom = INT_MAX` and `x = 0` in `[0, 1]` the search returns
no fraction at all, however long it runs. -/
theorem farey_returns_no_fraction_at_INT_MAX :
    (1 : Int) ≤ 2147483647 ∧
    ¬ ∃ (fuel : Nat) (r : Ratio), farey fuel (0 : ℚ) 2147483647 = some (Except.ok r) := by
  refine ⟨by decide, ?_⟩
  rintro ⟨fuel, r, h⟩
  unfold farey at h
  have e : (2147483647 : Int) = INT_MAX := rfl
  rw [e] at h
  rcases fareyLoop_zero_wraps (K := ℚ) fuel 1 (by decide) (by decide) with h0 | h0
  · rw [h0] at h
    cases h
  · rw [h0] at h
    cases h

/-! ## Scala output -/

/-- The loop of `stream_scala` appends one newline-terminated line per stored interval. -/
theorem foldl_render {K : Type} (fmt : K → String) (l : List (TuningInterval K)) :
    ∀ out : String,
      l.foldl (fun os interval => os ++ interval.render fmt ++ "\n") out
        = out ++ text_of_lines (l.map (TuningInterval.render fmt)) := by
  induction l with
  | nil => intro out; simp [text_of_lines]
  | cons i l ih =>
    intro out
    rw [List.foldl_cons, ih, List.map_cons, text_of_lines]
    simp only [String.append_assoc]

/-- The text written for a positive fraction in lowest terms. -/
theorem ostream_double_of_coprime (a b : Nat) (ha : 0 < a) (hb : 0 < b) (h : Nat.Coprime a b) :
    ostream_double ((a : ℚ) / (b : ℚ)) = String.mk (general_digits a b) := by
  have hb1 : (0 : Int) < (b : Int) := by exact_mod_cast hb
  have hx : ((a : ℚ) / (b : ℚ)) = (((a : Int) : ℚ) / ((b : Int) : ℚ)) := by push_cast; rfl
  have hn : ((a : ℚ) / (b : ℚ)).num = (a : Int) := by
    rw [hx]; exact Rat.num_div_eq_of_coprime hb1 (by simpa using h)
  have hd : (((a : ℚ) / (b : ℚ)).den : Int) = (b : Int) := by
    rw [hx]; exact Rat.den_div_eq_of_coprime hb1 (by simpa using h)
  have hd2 : ((a : ℚ) / (b : ℚ)).den = b := by exact_mod_cast hd
  have hpos : (0 : ℚ) < (a : ℚ) / (b : ℚ) := by positivity
  unfold ostream_double
  rw [if_neg hpos.ne', if_neg (not_lt.2 hpos.le), hn, hd2]
  simp

/-- The cents of the tuning of the unit test as the stream writes them. -/
theorem ostream_double_bremmer :
    ostream_double (9487252 / 100000) = "94.8725" ∧
    ostream_double (19705899 / 100000) = "197.059" ∧
    ostream_double (2978 / 10) = "297.8" ∧
    ostream_double (39579561 / 100000) = "395.796" ∧
    ostream_double (59589736 / 100000) = "595.897" ∧
    ostream_double (69931190 / 100000) = "699.312" ∧
    ostream_double (79682704 / 100000) = "796.827" ∧
    ostream_double (89620299 / 100000) = "896.203" ∧
    ostream_double (9991 / 10) = "999.1" ∧
    ostream_double (109617389 / 100000) = "1096.17" := by
  refine ⟨?_, ?_, ?_, ?_, ?_, ?_, ?_, ?_, ?_, ?_⟩
  · have e : (9487252 / 100000 : ℚ) = (((2371813 : Nat) : ℚ) / ((25000 : Nat) : ℚ)) := by norm_num
    rw [e, ostream_double_of_coprime _ _ (by decide) (by decide) (by decide)]
    decide
  · have e : (19705899 / 100000 : ℚ) = (((19705899 : Nat) : ℚ) / ((100000 : Nat) : ℚ)) := by norm_num
    rw [e, ostream_double_of_coprime _ _ (by decide) (by decide) (by decide)]
    decide
  · have e : (2978 / 10 : ℚ) = (((1489 : Nat) : ℚ) / ((5 : Nat) : ℚ)) := by norm_num
    rw [e, ostream_double_of_coprime _ _ (by decide) (by decide) (by decide)]
    decide
  · have e : (39579561 / 100000 : ℚ) = (((39579561 : Nat) : ℚ) / ((100000 : Nat) : ℚ)) := by norm_num
    rw [e, ostream_double_of_coprime _ _ (by decide) (by decide) (by decide)]
    decide
  · have e : (59589736 / 100000 : ℚ) = (((7448717 : Nat) : ℚ) / ((12500 : Nat) : ℚ)) := by norm_num
    rw [e, ostream_double_of_coprime _ _ (by decide) (by decide) (by decide)]
    decide
  · have e : (69931190 / 100000 : ℚ) = (((6993119 : Nat) : ℚ) / ((10000 : Nat) : ℚ)) := by norm_num
    rw [e, ostream_double_of_coprime _ _ (by decide) (by decide) (by decide)]
    decide
  · have e : (79682704 / 100000 : ℚ) = (((4980169 : Nat) : ℚ) / ((6250 : Nat) : ℚ)) := by norm_num
    rw [e, ostream_double_of_coprime _ _ (by decide) (by decide) (by decide)]
    decide
  · have e : (89620299 / 100000 : ℚ) = (((89620299 : Nat) : ℚ) / ((100000 : Nat) : ℚ)) := by norm_num
    rw [e, ostream_double_of_coprime _ _ (by decide) (by decide) (by decide)]
    decide
  · have e : (9991 / 10 : ℚ) = (((9991 : Nat) : ℚ) / ((10 : Nat) : ℚ)) := by norm_num
    rw [e, ostream_double_of_coprime _ _ (by decide) (by decide) (by decide)]
    decide
  · have e : (109617389 / 100000 : ℚ) = (((109617389 : Nat) : ℚ) / ((100000 : Nat) : ℚ)) := by norm_num
    rw [e, ostream_double_of_coprime _ _ (by decide) (by decide) (by decide)]
    decide

/-- The lines of the tuning of the unit test make up the text the test expects. -/
theorem bremmer_ebvt3_text :
    text_of_lines
        (["! " ++ bremmer_ebvt3.name, "!", bremmer_ebvt3.description,
            toString (bremmer_ebvt3.intervals.length : Int), "!"]
          ++ bremmer_ebvt3.intervals.map (TuningInterval.render ostream_double))
      = "! bremmer_ebvt3.scl\n!\nBill Bremmer EBVT III temperament (2011)\n12\n!\n94.8725\n197.059\n297.8\n395.796\n4/3\n595.897\n699.312\n796.827\n896.203\n999.1\n1096.17\n2/1\n" := by
  obtain ⟨h1, h2, h3, h4, h5, h6, h7, h8, h9, h10⟩ := ostream_double_bremmer
  simp only [bremmer_ebvt3, List.map, TuningInterval.render, Ratio.render, h1, h2, h3, h4, h5, h6,
    h7, h8, h9, h10, List.cons_append, List.nil_append, List.length]
  decide

/-- C9. For a tuning with name, description and `N` stored intervals (`N` fitting in `int`),
`stream_scala` writes to an empty stream exactly the newline-terminated lines `! <name>`,
`!`, the description, the decimal numeral `N`, `!`, and then `N` lines, the `i`-th being
the rendering of the `i`-th stored interval in the stored order; a Cents-form interval is
rendered as the stream writes its `double`, a Ratio-form interval as numerator, slash,
denominator (`4/3`, `2/1`).  Only the stored intervals are rendered. -/
theorem stream_scala_shape {K : Type} (fmt : K → String) (S : Tuning K)
    (hfit : (S.intervals.length : Int) ≤ INT_MAX) :
    S.stream_scala fmt "" =
      text_of_lines
        (["! " ++ S.name, "!", S.description, toString (S.intervals.length : Int), "!"]
          ++ S.intervals.map (TuningInterval.render fmt)) ∧
    (S.intervals.map (TuningInterval.render fmt)).length = S.intervals.length ∧
    (∀ i : Nat, (S.intervals.map (TuningInterval.render fmt)).get? i
        = (S.intervals.get? i).map (TuningInterval.render fmt)) ∧
    (∀ c : K, (TuningInterval.fromCents c : TuningInterval K).render fmt = fmt c) ∧
    (∀ r : Ratio, (TuningInterval.fromRatio r : TuningInterval K).render fmt
        = toString r.num ++ "/" ++ toString r.den) ∧
    (TuningInterval.fromRatio ⟨4, 3⟩ : TuningInterval K).render fmt = "4/3" ∧
    (TuningInterval.fromRatio ⟨2, 1⟩ : TuningInterval K).render fmt = "2/1" := by
  refine ⟨?_, by simp, ?_, fun c => rfl, fun r => rfl, rfl, rfl⟩
  · unfold Tuning.stream_scala
    simp only [foldl_render, degree_eq_length S hfit]
    have e : ("\n!\n" : String) = "\n" ++ ("!" ++ "\n") := by decide
    simp only [List.cons_append, List.nil_append, text_of_lines, String.append_assoc,
      String.empty_append, e]
    rfl
  · intro i
    simp

/-- The Scala output of the tuning of the unit test, the cents written with six significant
digits: it is the text the unit test `output_tuning_as_scala` expects. -/
theorem stream_scala_shape_witness :
    bremmer_ebvt3.stream_scala ostream_double "" =
      "! bremmer_ebvt3.scl\n!\nBill Bremmer EBVT III temperament (2011)\n12\n!\n94.8725\n197.059\n297.8\n395.796\n4/3\n595.897\n699.312\n796.827\n896.203\n999.1\n1096.17\n2/1\n" :=
  (stream_scala_shape ostream_double bremmer_ebvt3 (by decide)).1.trans bremmer_ebvt3_text

/-! ## Integer power as a refinement of the naive power -/

theorem naive_pow_eq_wrap32_pow (base : Int) (exp : Nat) :
    naive_pow base exp = wrap32 (base ^ exp) := by
  induction exp with
  | zero =>
    rw [naive_pow, pow_zero]
    decide
  | succ n ih =>
    rw [naive_pow, ih]
    apply eq_wrap32_of_modEq (wrap32_InInt _)
    rw [pow_succ]
    exact (wrap32_modEq _).trans ((wrap32_modEq _).mul (Int.ModEq.refl _))

/-- C20. For every base and every `unsigned` exponent, the square-and-multiply `powi` equals
the naive power computed with 32-bit wrap-around, that is `base ^ exp` reduced modulo `2^32`
into the signed range; in particular `powi(2, k) = 2^k` exactly for `0 ≤ k ≤ 30`, and
`powi(base, 0) = 1`. -/
theorem powi_refines_naive_pow (base : Int) (exp : Nat) :
    powi base exp = naive_pow base exp ∧
    powi base exp = wrap32 (base ^ exp) ∧
    InInt (powi base exp) ∧
    powi base exp ≡ base ^ exp [ZMOD 4294967296] ∧
    (exp ≤ 30 → powi 2 exp = 2 ^ exp) ∧
    powi base 0 = 1 := by
  refine ⟨?_, powi_eq_wrap32_pow base exp, ?_, ?_, powi_two_of_le exp, ?_⟩
  · rw [powi_eq_wrap32_pow, naive_pow_eq_wrap32_pow]
  · rw [powi_eq_wrap32_pow]; exact wrap32_InInt _
  · rw [powi_eq_wrap32_pow]; exact wrap32_modEq _
  · rw [powi_eq_wrap32_pow, pow_zero]; decide

/-- The truncating remainder by a positive modulus, corrected as in `euclidean_remainder`,
is the Euclidean remainder. -/
theorem tmod_corrected {a N : Int} (hN : 0 < N) :
    (if Int.tmod a N ≥ 0 then Int.tmod a N else Int.tmod a N + N) = a % N := by
  rcases le_or_lt 0 a with ha | ha
  · have hm : Int.tmod a N = a % N := Int.tmod_eq_emod ha hN.le
    rw [hm, if_pos (Int.emod_nonneg a hN.ne')]
  · have hq := Int.emod_add_ediv (-a) N
    have hs0 := Int.emod_nonneg (-a) hN.ne'
    have hs1 := Int.emod_lt_of_pos (-a) hN
    have htd : Int.tdiv a N = -((-a) / N) := tdiv_of_nonpos ha.le hN
    have htm := Int.tmod_def a N
    rw [htd] at htm
    have hmul : N * -(-a / N) = -(N * (-a / N)) := by ring
    rw [hmul] at htm
    have htm2 : Int.tmod a N = -((-a) % N) := by omega
    rw [htm2]
    by_cases hz : (-a) % N = 0
    · have := ediv_emod_of_eq (a := a) (q := -((-a) / N)) (r := 0) hN
        (by rw [hmul]; omega) le_rfl hN
      rw [this.2, hz]
      simp
    · have := ediv_emod_of_eq (a := a) (q := -((-a) / N) - 1) (r := N - (-a) % N) hN
        (by have : N * (-(-a / N) - 1) = -(N * (-a / N)) - N := by ring
            rw [this]; omega) (by omega) (by omega)
      rw [this.2, if_neg (by omega)]
      ring

/-- C16, amended. For every `int` `a` and every `int` `b ≠ 0` other than the minimum `int`,
the pair `a = INT_MIN`, `b = -1` excepted, `euclidean_remainder(a, b)` returns `r` with
`0 ≤ r < |b|` and `a - r` divisible by `b`: the Euclidean remainder; for `b > 0` it is the
floor-mod of `a` by `b`, for negative `a` as well. -/
theorem euclidean_remainder_spec (a b : Int) (hb : InInt b) (hb0 : b ≠ 0)
    (hbmin : b ≠ INT_MIN) (hquot : a ≠ INT_MIN ∨ b ≠ -1) :
    ∃ r, euclidean_remainder a b = Except.ok r ∧ 0 ≤ r ∧ r < |b| ∧ b ∣ a - r ∧
      r = Int.emod a b ∧ (0 < b → r = Int.fmod a b) := by
  have hr0 := Int.emod_nonneg a hb0
  have hr1 : a % b < |b| := Int.emod_lt a hb0
  have hkey : (if Int.tmod a b ≥ 0 then Int.tmod a b else wrap32 (Int.tmod a b + wrap32 |b|))
      = a % b := by
    have habs : InInt |b| := by
      unfold InInt INT_MIN INT_MAX at *
      rcases abs_cases b with ⟨e, _⟩ | ⟨e, _⟩ <;> rw [e] <;> constructor <;> omega
    rw [wrap32_of_InInt habs]
    have hpos : 0 < |b| := abs_pos.2 hb0
    have e1 : Int.tmod a b = Int.tmod a |b| := by
      rcases abs_cases b with ⟨e, _⟩ | ⟨e, _⟩ <;> rw [e]
      rw [Int.tmod_neg]
    have e2 : a % b = a % |b| := (Int.emod_abs a b).symm
    have hc := tmod_corrected (a := a) hpos
    rw [e1, e2]
    by_cases hge : Int.tmod a |b| ≥ 0
    · rw [if_pos hge] at hc ⊢
      exact hc
    · rw [if_neg hge] at hc ⊢
      rw [hc]
      apply wrap32_of_InInt
      have h0 := Int.emod_nonneg a hpos.ne'
      have h1 := Int.emod_lt_of_pos a hpos
      unfold InInt INT_MIN INT_MAX at *
      constructor <;> omega
  have hnot : ¬ (a = INT_MIN ∧ b = -1) := by
    rintro ⟨h1, h2⟩
    rcases hquot with h | h
    · exact h h1
    · exact h h2
  refine ⟨a % b, ?_, hr0, hr1, ?_, rfl, ?_⟩
  · unfold euclidean_remainder
    rw [if_neg hb0, if_neg hnot]
    simp only [hkey]
  · exact Int.dvd_sub_of_emod_eq rfl
  · intro hpos
    exact (Int.fmod_eq_emod a hpos.le).symm

/-- C16, counterexample. For `a` the minimum `int` and `b = -1`, which is neither `0` nor the
minimum `int`, `euclidean_remainder(a, b)` returns no remainder: the quotient of `a % b` is
not representable and the program is terminated. -/
theorem euclidean_remainder_fails_at_INT_MIN :
    InInt INT_MIN ∧ InInt (-1) ∧ (-1 : Int) ≠ 0 ∧ (-1 : Int) ≠ INT_MIN ∧
    euclidean_remainder INT_MIN (-1) = Except.error Error.arithmetic_fault ∧
    ¬ ∃ r, euclidean_remainder INT_MIN (-1) = Except.ok r := by
  have h : euclidean_remainder INT_MIN (-1) = Except.error Error.arithmetic_fault := by
    unfold euclidean_remainder
    rw [if_neg (by decide), if_pos ⟨rfl, rfl⟩]
  refine ⟨by decide, by decide, by decide, by decide, h, ?_⟩
  rintro ⟨r, hr⟩
  rw [h] at hr
  cases hr

/-! ## The base period, the next period, stored ratios, the empty tuning -/

/-- C19. For a tuning with `N ≥ 1` stored intervals and `1 ≤ k ≤ N`, `at(k)` has base index
`k - 1` and octave count `0`, and is the stored interval number `k - 1` itself, in the same
storage form and with the same value. -/
theorem at_base_period {K : Type} [LinearOrderedField K] (S : Tuning K) (k : Int)
    (hfit : (S.intervals.length : Int) ≤ INT_MAX) (h1 : 1 ≤ k)
    (hk : k ≤ (S.intervals.length : Int)) :
    ∃ stored : TuningInterval K,
      S.intervals.get? (k - 1).toNat = some stored ∧
      S.base_index k = Except.ok (k - 1) ∧
      S.octave k = 0 ∧
      S.at k = Except.ok stored := by
  have hN : 1 ≤ S.intervals.length := by omega
  have hNpos : (0 : Int) < (S.intervals.length : Int) := by omega
  have hk0 : k ≠ 0 := by omega
  have hkin : InInt k := by unfold InInt INT_MIN; constructor <;> omega
  have hk1 : InInt (k - 1) := by unfold InInt INT_MIN; constructor <;> omega
  have hfl := ediv_emod_of_eq (a := k - 1) (q := 0) (r := k - 1) hNpos (by ring) (by omega)
    (by omega)
  have hbi := base_index_eq S k hN hfit hk0 hk1
  have hoc := octave_eq S k hN hfit hk0 hkin hk1
  rw [Int.fdiv_eq_ediv _ hNpos.le, hfl.1] at hoc
  have hmod : Int.emod (k - 1) (S.intervals.length : Int) = k - 1 := hfl.2
  rw [hmod] at hbi
  obtain ⟨v, hget, hv⟩ := vector_at_of_lt S.intervals (k - 1) (by omega) (by omega)
  refine ⟨v, hget, hbi, hoc, ?_⟩
  unfold Tuning.at
  rw [if_neg hk0, hbi]
  simp only [hv, hoc]
  cases v with
  | fromCents c =>
    have e : wrap32 (0 * CENTS_PER_OCTAVE) = 0 := by decide
    unfold TuningInterval.add_octaves
    simp only [e, Int.cast_zero, add_zero]
  | fromRatio r => simp [TuningInterval.add_octaves]

/-- C18. For a tuning with `N ≥ 1` stored intervals and an `int` `k` with `k ≠ 0` and
`k + N ≠ 0` (indices and the two transpositions within the range of `int`), `at(k + N)`
uses the same base index and stored interval as `at(k)` with an octave count larger by
exactly one, hence is `at(k)` transposed up one octave: same storage form, ratio value
doubled, and for the Cents form the stored cents plus `1200 * (octave + 1)`. -/
theorem at_next_period {K : Type} [LinearOrderedField K] (S : Tuning K) (k : Int)
    (hN : 1 ≤ S.intervals.length) (hfit : (S.intervals.length : Int) ≤ INT_MAX)
    (hk0 : k ≠ 0) (hkN : k + (S.intervals.length : Int) ≠ 0)
    (hk : InInt k) (hk1 : InInt (k - 1)) (hkN1 : InInt (k + (S.intervals.length : Int)))
    (hfits : ∀ stored,
      vector_at S.intervals (Int.emod (k - 1) (S.intervals.length : Int)) = Except.ok stored →
      stored.TransposeFits (S.octave k) ∧ stored.TransposeFits (S.octave k + 1)) :
    S.base_index (k + (S.intervals.length : Int)) = S.base_index k ∧
    S.octave (k + (S.intervals.length : Int)) = S.octave k + 1 ∧
    ∃ index stored lo hi,
      S.base_index k = Except.ok index ∧
      vector_at S.intervals index = Except.ok stored ∧
      S.at k = stored.add_octaves (S.octave k) ∧
      S.at (k + (S.intervals.length : Int)) = stored.add_octaves (S.octave k + 1) ∧
      S.at k = Except.ok lo ∧
      S.at (k + (S.intervals.length : Int)) = Except.ok hi ∧
      hi.isRatio = lo.isRatio ∧ hi.OctaveAbove lo ∧
      (∀ c, stored = TuningInterval.fromCents c →
        hi = TuningInterval.fromCents
          (c + ((CENTS_PER_OCTAVE * (S.octave k + 1) : Int) : K))) := by
  have hNpos : (0 : Int) < (S.intervals.length : Int) := by exact_mod_cast hN
  have hr0 : 0 ≤ Int.emod (k - 1) (S.intervals.length : Int) :=
    Int.emod_nonneg (k - 1) hNpos.ne'
  have hr1 : Int.emod (k - 1) (S.intervals.length : Int) < (S.intervals.length : Int) :=
    Int.emod_lt_of_pos (k - 1) hNpos
  obtain ⟨v, _, hv⟩ := vector_at_of_lt S.intervals _ hr0 hr1
  obtain ⟨f0, f1⟩ := hfits v hv
  have hkN2 : InInt (k + (S.intervals.length : Int) - 1) := by
    unfold InInt INT_MIN INT_MAX at *
    constructor <;> omega
  have hshift : k + (S.intervals.length : Int) - 1 = (k - 1) + (S.intervals.length : Int) := by
    ring
  have eidx : Int.emod (k + (S.intervals.length : Int) - 1) (S.intervals.length : Int)
      = Int.emod (k - 1) (S.intervals.length : Int) := by
    rw [hshift]
    exact Int.add_emod_self
  have eoct : Int.fdiv (k + (S.intervals.length : Int) - 1) (S.intervals.length : Int)
      = Int.fdiv (k - 1) (S.intervals.length : Int) + 1 := by
    rw [hshift, Int.fdiv_eq_ediv _ hNpos.le, Int.fdiv_eq_ediv _ hNpos.le]
    exact Int.add_ediv_of_dvd_right (dvd_refl _) |>.trans (by rw [Int.ediv_self hNpos.ne'])
  have b0 := base_index_eq S k hN hfit hk0 hk1
  have b1 := base_index_eq S _ hN hfit hkN hkN2
  have o0 := octave_eq S k hN hfit hk0 hk hk1
  have o1 := octave_eq S _ hN hfit hkN hkN1 hkN2
  rw [eidx] at b1
  rw [eoct, ← o0] at o1
  have a0 : S.at k = v.add_octaves (S.octave k) := by
    unfold Tuning.at
    rw [if_neg hk0, b0]
    simp only [hv]
  have a1 : S.at (k + (S.intervals.length : Int)) = v.add_octaves (S.octave k + 1) := by
    unfold Tuning.at
    rw [if_neg hkN, b1]
    simp only [hv, o1]
  obtain ⟨lo, hi, e0, e1, hform, habove⟩ := add_octaves_succ v _ f0 f1
  refine ⟨by rw [b1, b0], o1, _, v, lo, hi, b0, hv, a0, a1, by rw [a0, e0], by rw [a1, e1],
    hform, habove, ?_⟩
  intro c hc
  subst hc
  have w1 : wrap32 ((S.octave k + 1) * CENTS_PER_OCTAVE) = (S.octave k + 1) * CENTS_PER_OCTAVE :=
    wrap32_of_InInt f1
  simp only [TuningInterval.add_octaves, w1] at e1
  have := Except.ok.inj e1
  rw [← this, mul_comm]

/-- C14. The interval constructed from a ratio `r` returns exactly `r` from `ratio()`,
whatever the denominator (for instance `1/201`) and without any search (the result does
not depend on the iterations allowed to `farey`); the `(numer, denom)` constructor keeps a
fraction with positive numerator and denominator in lowest terms as it is. -/
theorem ratio_of_ratio_exact {K : Type} [LinearOrderedField K] [FloorRing K] (r : Ratio)
    (pow2 : K → K) (fuel : Nat) :
    (TuningInterval.fromRatio r : TuningInterval K).ratio pow2 fuel = some (Except.ok r) ∧
    (∀ n d : Int, 0 < n → 0 < d → Int.gcd n d = 1 →
      (TuningInterval.ofNumerDenom n d : Except Error (TuningInterval K))
        = Except.ok (TuningInterval.fromRatio ⟨n, d⟩)) ∧
    (TuningInterval.fromRatio ⟨1, 201⟩ : TuningInterval K).ratio pow2 fuel
      = some (Except.ok ⟨1, 201⟩) := by
  refine ⟨rfl, ?_, rfl⟩
  intro n d _ hd hg
  unfold TuningInterval.ofNumerDenom
  rw [Ratio.make_of_normal n d hd hg]

/-- C11, amended. A tuning built from an empty interval sequence is constructed without
failure; its `at(0)` returns the unison `1/1`, and its `at(k)` fails, on the assertion
`b != 0` of `euclidean_remainder`, for every `int` `k ≠ 0`. -/
theorem at_empty_tuning {K : Type} [LinearOrderedField K] (name description : String) :
    (Tuning.mk name description [] : Tuning K).at 0
      = Except.ok (TuningInterval.fromRatio ⟨1, 1⟩) ∧
    ∀ k : Int, k ≠ 0 →
      (Tuning.mk name description [] : Tuning K).at k
        = Except.error Error.assertion_failed := by
  constructor
  · unfold Tuning.at
    rw [if_pos rfl]
    rfl
  · intro k hk
    have hw : wrap32 0 = 0 := by decide
    have hb : (Tuning.mk name description [] : Tuning K).base_index k
        = Except.error Error.assertion_failed := by
      show euclidean_remainder (wrap32 (k - 1)) (wrap32 ((0 : Nat) : Int)) = _
      rw [Nat.cast_zero, hw]
      rfl
    unfold Tuning.at
    rw [if_neg hk, hb]

/-- C11, counterexample. The empty tuning is constructed, and its `at(0)` returns the
unison instead of failing. -/
theorem at_zero_of_empty_tuning :
    empty_tuning.intervals = [] ∧
    empty_tuning.at 0 = Except.ok (TuningInterval.fromRatio ⟨1, 1⟩) := by
  refine ⟨rfl, ?_⟩
  unfold Tuning.at
  rw [if_pos rfl]
  rfl

/-- The Euclidean remainder of `-7` by `3` is `2`, not the truncating remainder `-1`. -/
theorem euclidean_remainder_spec_witness :
    ∃ r, euclidean_remainder (-7) 3 = Except.ok r ∧ 0 ≤ r ∧ r < |(3 : Int)| ∧
      (3 : Int) ∣ -7 - r ∧ r = Int.emod (-7) 3 ∧ ((0 : Int) < 3 → r = Int.fmod (-7) 3) :=
  euclidean_remainder_spec (-7) 3 (by decide) (by decide) (by decide) (Or.inl (by decide))

/-- The base period at index `5` of the tuning of the unit test. -/
theorem at_base_period_witness :
    ∃ stored : TuningInterval ℚ,
      bremmer_ebvt3.intervals.get? ((5 : Int) - 1).toNat = some stored ∧
      bremmer_ebvt3.base_index 5 = Except.ok (5 - 1) ∧
      bremmer_ebvt3.octave 5 = 0 ∧
      bremmer_ebvt3.at 5 = Except.ok stored :=
  at_base_period bremmer_ebvt3 5 (by decide) (by decide) (by decide)

/-- The next period at index `-11` of the tuning of the unit test, whose first interval is
stored in cents. -/
theorem at_next_period_witness :
    bremmer_ebvt3.base_index (-11 + (bremmer_ebvt3.intervals.length : Int))
      = bremmer_ebvt3.base_index (-11) ∧
    bremmer_ebvt3.octave (-11 + (bremmer_ebvt3.intervals.length : Int))
      = bremmer_ebvt3.octave (-11) + 1 :=
  have h := at_next_period bremmer_ebvt3 (-11) (by decide) (by decide) (by decide) (by decide)
    (by decide) (by decide) (by decide)
    (by
      intro stored h
      have e : Int.emod (-11 - 1) (bremmer_ebvt3.intervals.length : Int) = 0 := by decide
      rw [e] at h
      have h0 : stored = TuningInterval.fromCents (9487252 / 100000) := by
        simpa [vector_at, bremmer_ebvt3] using h.symm
      subst h0
      have eo : bremmer_ebvt3.octave (-11) = -1 := by decide
      rw [eo]
      exact ⟨by unfold TuningInterval.TransposeFits; decide,
        by unfold TuningInterval.TransposeFits; decide⟩)
  ⟨h.1, h.2.1⟩

/-! ## The class invariant of ratios -/

/-- The constructor raises no error other than `bad_rational`. -/
theorem Ratio.make_error {n d : Int} {e : Error} (h : Ratio.make n d = Except.error e) :
    e = Error.bad_rational := by
  unfold Ratio.make at h
  simp only at h
  split_ifs at h <;> exact (Except.error.inj h).symm

/-- Whatever the constructor returns for two `int` arguments satisfies the class invariant. -/
theorem Ratio.make_normal {n d : Int} (hn : InInt n) (hd : InInt d) {r : Ratio}
    (h : Ratio.make n d = Except.ok r) : r.Normal := by
  unfold Ratio.make at h
  by_cases hd0 : d = 0
  · rw [if_pos hd0] at h
    cases h
  rw [if_neg hd0] at h
  by_cases hn0 : n = 0
  · rw [if_pos hn0] at h
    have := Except.ok.inj h
    subst this
    unfold Ratio.Normal
    decide
  rw [if_neg hn0] at h
  have hgpos : 0 < Int.gcd n d := Int.gcd_pos_of_ne_zero_left d hn0
  have hg : (0 : Int) < (Int.gcd n d : Int) := by exact_mod_cast hgpos
  obtain ⟨n', hn'⟩ := Int.gcd_dvd_left (a := n) (b := d)
  obtain ⟨d', hd'⟩ := Int.gcd_dvd_right (a := n) (b := d)
  have hnq : n / (Int.gcd n d : Int) = n' := Int.ediv_eq_of_eq_mul_right hg.ne' hn'
  have hdq : d / (Int.gcd n d : Int) = d' := Int.ediv_eq_of_eq_mul_right hg.ne' hd'
  have hcop : Int.gcd n' d' = 1 := by
    have := Int.gcd_div_gcd_div_gcd (i := n) (j := d) hgpos
    rwa [hnq, hdq] at this
  have hd'0 : d' ≠ 0 := by
    rintro rfl
    rw [mul_zero] at hd'
    exact hd0 hd'
  -- the reduced fields lie between the arguments and zero
  have hbn : (0 ≤ n → 0 ≤ n' ∧ n' ≤ n) ∧ (n ≤ 0 → n ≤ n' ∧ n' ≤ 0) := by
    constructor
    · intro h0
      have : 0 ≤ n' := by
        by_contra hc
        have : n' ≤ -1 := by omega
        nlinarith
      exact ⟨this, by nlinarith⟩
    · intro h0
      have : n' ≤ 0 := by
        by_contra hc
        have : 1 ≤ n' := by omega
        nlinarith
      exact ⟨by nlinarith, this⟩
  have hbd : (0 ≤ d → 0 ≤ d' ∧ d' ≤ d) ∧ (d ≤ 0 → d ≤ d' ∧ d' ≤ 0) := by
    constructor
    · intro h0
      have : 0 ≤ d' := by
        by_contra hc
        have : d' ≤ -1 := by omega
        nlinarith
      exact ⟨this, by nlinarith⟩
    · intro h0
      have : d' ≤ 0 := by
        by_contra hc
        have : 1 ≤ d' := by omega
        nlinarith
      exact ⟨by nlinarith, this⟩
  have hIn : InInt n' := by
    unfold InInt INT_MIN INT_MAX at *
    rcases le_total 0 n with h0 | h0
    · have := hbn.1 h0; constructor <;> omega
    · have := hbn.2 h0; constructor <;> omega
  have hId : InInt d' := by
    unfold InInt INT_MIN INT_MAX at *
    rcases le_total 0 d with h0 | h0
    · have := hbd.1 h0; constructor <;> omega
    · have := hbd.2 h0; constructor <;> omega
  simp only [hnq, hdq] at h
  by_cases h1 : d' < -INT_MAX
  · rw [if_pos h1] at h
    cases h
  rw [if_neg h1] at h
  by_cases h2 : d' < 0
  · rw [if_pos h2] at h
    have := Except.ok.inj h
    subst this
    have wd : wrap32 (-d') = -d' := by
      apply wrap32_of_InInt
      unfold InInt INT_MIN INT_MAX at *
      constructor <;> omega
    refine ⟨?_, ?_, wrap32_InInt _, wrap32_InInt _⟩
    · show 0 < wrap32 (-d')
      rw [wd]; omega
    · show Int.gcd (wrap32 (-n')) (wrap32 (-d')) = 1
      rw [wd, Int.gcd_neg]
      by_cases hmin : n' = -2147483648
      · have : wrap32 (-n') = n' := by rw [hmin]; decide
        rw [this]; exact hcop
      · have : wrap32 (-n') = -n' := by
          apply wrap32_of_InInt
          unfold InInt INT_MIN INT_MAX at *
          constructor <;> omega
        rw [this, Int.neg_gcd]; exact hcop
  · rw [if_neg h2] at h
    have := Except.ok.inj h
    subst this
    exact ⟨by show 0 < d'; omega, hcop, hIn, hId⟩

theorem ofNumerDenom_normal {K : Type} {n d : Int} (hn : InInt n) (hd : InInt d) {r : Ratio}
    (h : (TuningInterval.ofNumerDenom n d : Except Error (TuningInterval K))
      = Except.ok (TuningInterval.fromRatio r)) : r.Normal := by
  unfold TuningInterval.ofNumerDenom at h
  cases hm : Ratio.make n d with
  | error e => rw [hm] at h; cases h
  | ok r' =>
    rw [hm] at h
    have e : r' = r := by
      have := Except.ok.inj h
      exact TuningInterval.fromRatio.inj this
    rw [← e]
    exact Ratio.make_normal hn hd hm

/-- Transposing a ratio that satisfies the class invariant by any number of octaves gives,
when it gives an interval at all, a ratio that satisfies it. -/
theorem add_octaves_normal {K : Type} [LinearOrderedField K] {r r1 : Ratio} (k : Int)
    (hr : r.Normal)
    (h : (TuningInterval.fromRatio r : TuningInterval K).add_octaves k
      = Except.ok (TuningInterval.fromRatio r1)) : r1.Normal := by
  unfold TuningInterval.add_octaves at h
  simp only at h
  split_ifs at h with h0 h1
  · have := TuningInterval.fromRatio.inj (Except.ok.inj h)
    rw [← this]; exact hr
  · exact ofNumerDenom_normal (wrap32_InInt _) hr.2.2.2 h
  · exact ofNumerDenom_normal hr.2.2.1 (wrap32_InInt _) h

theorem add_octaves_cents_form {K : Type} [LinearOrderedField K] (c : K) (k : Int) :
    ∃ c1, (TuningInterval.fromCents c : TuningInterval K).add_octaves k
      = Except.ok (TuningInterval.fromCents c1) := ⟨_, rfl⟩

theorem vector_at_mem {α : Type} {xs : List α} {i : Int} {v : α}
    (h : vector_at xs i = Except.ok v) : v ∈ xs := by
  unfold vector_at at h
  split_ifs at h
  cases hg : xs.get? i.toNat with
  | none => rw [hg] at h; cases h
  | some w =>
    rw [hg] at h
    have := Except.ok.inj h
    subst this
    exact List.get?_mem hg

/-- Every ratio returned by `at` satisfies the class invariant when the stored ratios do. -/
theorem at_normal {K : Type} [LinearOrderedField K] (S : Tuning K) (k : Int) {r1 : Ratio}
    (hS : ∀ r, TuningInterval.fromRatio r ∈ S.intervals → r.Normal)
    (h : S.at k = Except.ok (TuningInterval.fromRatio r1)) : r1.Normal := by
  unfold Tuning.at at h
  split_ifs at h with h0
  · exact ofNumerDenom_normal (by decide) (by decide) h
  · cases hb : S.base_index k with
    | error e => rw [hb] at h; cases h
    | ok idx =>
      rw [hb] at h
      simp only at h
      cases hv : vector_at S.intervals idx with
      | error e => rw [hv] at h; cases h
      | ok v =>
        rw [hv] at h
        simp only at h
        cases v with
        | fromCents c =>
          obtain ⟨c1, hc1⟩ := add_octaves_cents_form c (S.octave k)
          rw [hc1] at h
          cases h
        | fromRatio r =>
          exact add_octaves_normal _ (hS r (vector_at_mem hv)) h

/-- The rational returned by `closest_rational` satisfies the class invariant when adding
the integral part does not overflow. -/
theorem closest_rational_normal {K : Type} [LinearOrderedField K] [FloorRing K] (y : K)
    (hy : 0 ≤ y) (hsmall : trunc y * 200 + 200 ≤ INT_MAX) :
    ∃ R, closest_rational 200 y = some (Except.ok R) ∧ R.Normal := by
  have htr := trunc_of_nonneg hy
  have hfl0 : 0 ≤ Int.floor y := Int.floor_nonneg.2 hy
  rw [htr] at hsmall
  unfold INT_MAX at hsmall
  have hfit : InInt (trunc y) := by
    rw [htr]; unfold InInt INT_MIN INT_MAX; constructor <;> omega
  obtain ⟨r, hr, g1, g2, g3, g4, g5⟩ :=
    farey_returns (y - ((wrap32 (trunc y) : Int) : K)) 200 (by norm_num) (by norm_num)
  have e200 : (200 : Int).toNat = 200 := rfl
  rw [e200] at hr
  refine ⟨Ratio.addInt (wrap32 (trunc y)) r, ?_, ?_⟩
  · unfold closest_rational
    simp only [hr]
  · rw [wrap32_of_InInt hfit, htr]
    have hprod : 0 ≤ Int.floor y * r.den ∧ Int.floor y * r.den ≤ Int.floor y * 200 :=
      ⟨mul_nonneg hfl0 (by omega), mul_le_mul_of_nonneg_left g2 hfl0⟩
    have w1 : wrap32 (Int.floor y * r.den) = Int.floor y * r.den :=
      wrap32_of_InInt (by unfold InInt INT_MIN INT_MAX; constructor <;> omega)
    have w2 : wrap32 (r.num + Int.floor y * r.den) = r.num + Int.floor y * r.den :=
      wrap32_of_InInt (by unfold InInt INT_MIN INT_MAX; constructor <;> omega)
    unfold Ratio.addInt Ratio.Normal
    simp only [w1, w2]
    refine ⟨by omega, ?_, ?_, ?_⟩
    · obtain ⟨u, v, huv⟩ := Int.isCoprime_iff_gcd_eq_one.2 g3
      exact gcd_eq_one_of_comb (u := u) (v := v - u * Int.floor y) (by linear_combination huv)
    · unfold InInt INT_MIN INT_MAX; constructor <;> omega
    · unfold InInt INT_MIN INT_MAX; constructor <;> omega

/-- C13, amended. Every ratio produced by the `(numer, denom)` constructor (which produces
one whenever `denom > 0`), by `add_octaves` of a ratio satisfying the invariant (for every
`k`), by `at` of a tuning whose stored ratios satisfy it, and by `ratio()` (of a stored
ratio, or of cents whose ratio `x ≥ 0` has `trunc(x) * 200 + 200` within `int`, so that
adding the integral part does not overflow) has a positive denominator and coprime
numerator and denominator, both within `int`; transposing `1/2` up one octave yields `1/1`. -/
theorem ratio_invariant {K : Type} [LinearOrderedField K] [FloorRing K] :
    (∀ (numer denom : Int) (r : Ratio), InInt numer → InInt denom →
      (TuningInterval.ofNumerDenom numer denom : Except Error (TuningInterval K))
        = Except.ok (TuningInterval.fromRatio r) → r.Normal) ∧
    (∀ (numer denom : Int), InInt numer → 0 < denom → denom ≤ INT_MAX →
      ∃ r, (TuningInterval.ofNumerDenom numer denom : Except Error (TuningInterval K))
        = Except.ok (TuningInterval.fromRatio r) ∧ r.Normal) ∧
    (∀ (r r1 : Ratio) (k : Int), r.Normal →
      (TuningInterval.fromRatio r : TuningInterval K).add_octaves k
        = Except.ok (TuningInterval.fromRatio r1) → r1.Normal) ∧
    (∀ (S : Tuning K) (k : Int) (r1 : Ratio),
      (∀ r, TuningInterval.fromRatio r ∈ S.intervals → r.Normal) →
      S.at k = Except.ok (TuningInterval.fromRatio r1) → r1.Normal) ∧
    (∀ (r : Ratio) (pow2 : K → K) (fuel : Nat), r.Normal →
      ∃ R, (TuningInterval.fromRatio r : TuningInterval K).ratio pow2 fuel
        = some (Except.ok R) ∧ R.Normal) ∧
    (∀ (c : K) (pow2 : K → K), 0 ≤ cents_to_ratio_as_double pow2 c →
      trunc (cents_to_ratio_as_double pow2 c) * 200 + 200 ≤ INT_MAX →
      ∃ R, (TuningInterval.fromCents c : TuningInterval K).ratio pow2 200
        = some (Except.ok R) ∧ R.Normal) ∧
    (TuningInterval.fromRatio ⟨1, 2⟩ : TuningInterval K).add_octaves 1
      = Except.ok (TuningInterval.fromRatio ⟨1, 1⟩) := by
  refine ⟨?_, ?_, ?_, ?_, ?_, ?_, ?_⟩
  · intro n d r hn hd h
    exact ofNumerDenom_normal hn hd h
  · intro n d hn hd0 hd1
    obtain ⟨r, hr, _⟩ := Ratio.make_of_pos n d hd0
    have hdin : InInt d := by unfold InInt INT_MIN; constructor <;> omega
    refine ⟨r, ?_, Ratio.make_normal hn hdin hr⟩
    unfold TuningInterval.ofNumerDenom
    rw [hr]
  · intro r r1 k hr h
    exact add_octaves_normal k hr h
  · intro S k r1 hS h
    exact at_normal S k hS h
  · intro r pow2 fuel hr
    exact ⟨r, rfl, hr⟩
  · intro c pow2 h0 h1
    exact closest_rational_normal _ h0 h1
  · have hu : toUnsigned 1 = 1 := by decide
    have hp : powi 2 1 = 2 := by simpa using powi_two_of_le 1 (by norm_num)
    have hgcd : Int.gcd 2 2 = 2 := by decide
    simp [TuningInterval.add_octaves, hu, hp, TuningInterval.ofNumerDenom, Ratio.make, wrap32,
      INT_MAX, hgcd]

/-- C13, counterexample. For the ratio value `1073741824 + 1/3`, whose integral part fits in
`int`, `closest_rational` adds `1073741824 * 3` to the numerator of `1/3`, which wraps
around: the result `-1073741823/3` is not in lowest terms. -/
theorem closest_rational_not_reduced :
    closest_rational 200 (1073741824 + 1 / 3 : ℚ) = some (Except.ok ⟨-1073741823, 3⟩) ∧
    Int.gcd (-1073741823) 3 = 3 := by
  refine ⟨?_, by decide⟩
  have htr : trunc (1073741824 + 1 / 3 : ℚ) = 1073741824 := by
    rw [trunc_of_nonneg (by norm_num), Int.floor_eq_iff]
    norm_num
  have hw : wrap32 1073741824 = 1073741824 := by decide
  have hfrac : (1073741824 + 1 / 3 : ℚ) - ((1073741824 : Int) : ℚ)
      = ((1 : Int) : ℚ) / ((3 : Int) : ℚ) := by norm_num
  have hf : farey 200 (((1 : Int) : ℚ) / ((3 : Int) : ℚ)) 200 = some (Except.ok ⟨1, 3⟩) :=
    fareyLoop_interior 200 1 3 (by decide) (by decide) (by decide) (by decide) (by decide)
      200 0 1 1 1 le_rfl le_rfl (by decide) le_rfl (by decide) (by decide) (by decide)
      (by decide)
  have hadd : Ratio.addInt 1073741824 ⟨1, 3⟩ = ⟨-1073741823, 3⟩ := by decide
  unfold closest_rational
  simp only [htr, hw, hfrac, hf, hadd]

/-! ## Overflow in octave transposition -/

/-- C12, amended. Octave transposition does not report an overflow.  For a ratio `n/d` with
`d > 0` and every `int` `k > 0` it returns the interval built from the wrapped-around
numerator `wrap(n * wrap(2^k))` over `d`; for `k < 0` it is the constructor applied to `n`
and the wrapped-around denominator, which fails only as the constructor does (with
`bad_rational`, as when that denominator is `0`); no other error is ever raised, and the
Cents form never fails. -/
theorem add_octaves_overflow_unreported {K : Type} [LinearOrderedField K] (r : Ratio) (k : Int)
    (hd : 0 < r.den) :
    (0 < k →
      ∃ r1, (TuningInterval.fromRatio r : TuningInterval K).add_octaves k
          = Except.ok (TuningInterval.fromRatio r1) ∧
        r1.value = ((wrap32 (r.num * wrap32 (2 ^ toUnsigned k)) : Int) : ℚ) / (r.den : ℚ) ∧
        0 < r1.den ∧ Int.gcd r1.num r1.den = 1) ∧
    (k < 0 →
      (TuningInterval.fromRatio r : TuningInterval K).add_octaves k
        = TuningInterval.ofNumerDenom r.num
            (wrap32 (r.den * wrap32 (2 ^ toUnsigned (wrap32 (-k))))) ∧
      (wrap32 (r.den * wrap32 (2 ^ toUnsigned (wrap32 (-k)))) = 0 →
        (TuningInterval.fromRatio r : TuningInterval K).add_octaves k
          = Except.error Error.bad_rational)) ∧
    (∀ e, (TuningInterval.fromRatio r : TuningInterval K).add_octaves k = Except.error e →
      e = Error.bad_rational) ∧
    (∀ c : K, (TuningInterval.fromCents c : TuningInterval K).add_octaves k
      = Except.ok (TuningInterval.fromCents
          (c + ((wrap32 (k * CENTS_PER_OCTAVE) : Int) : K)))) := by
  refine ⟨?_, ?_, ?_, fun c => rfl⟩
  · intro hk
    obtain ⟨r1, h1, h2, h3, h4, _, _⟩ :=
      Ratio.make_of_pos (wrap32 (r.num * wrap32 (2 ^ toUnsigned k))) r.den hd
    refine ⟨r1, ?_, h4, h2, h3⟩
    unfold TuningInterval.add_octaves
    simp only
    rw [if_neg hk.ne', if_pos hk, powi_eq_wrap32_pow]
    unfold TuningInterval.ofNumerDenom
    rw [h1]
  · intro hk
    have e : (TuningInterval.fromRatio r : TuningInterval K).add_octaves k
        = TuningInterval.ofNumerDenom r.num
            (wrap32 (r.den * wrap32 (2 ^ toUnsigned (wrap32 (-k))))) := by
      unfold TuningInterval.add_octaves
      simp only
      rw [if_neg hk.ne, if_neg (by omega), powi_eq_wrap32_pow]
    refine ⟨e, ?_⟩
    intro hz
    rw [e, hz]
    unfold TuningInterval.ofNumerDenom Ratio.make
    rw [if_pos rfl]
  · intro e h
    unfold TuningInterval.add_octaves at h
    simp only at h
    split_ifs at h
    all_goals
      unfold TuningInterval.ofNumerDenom at h
      split at h
      · cases h
      · next e' hm =>
        have := Except.error.inj h
        rw [← this]
        exact Ratio.make_error hm

/-- The transposition of `1073741824/1` by one octave returns an interval. -/
theorem add_octaves_overflow_unreported_witness :
    ∃ r1, (TuningInterval.fromRatio ⟨1073741824, 1⟩ : TuningInterval ℚ).add_octaves 1
        = Except.ok (TuningInterval.fromRatio r1) ∧
      r1.value = ((wrap32 (1073741824 * wrap32 (2 ^ toUnsigned 1)) : Int) : ℚ) / ((1 : Int) : ℚ) ∧
      0 < r1.den ∧ Int.gcd r1.num r1.den = 1 :=
  (add_octaves_overflow_unreported ⟨1073741824, 1⟩ 1 (by decide)).1 (by decide)

/-- C12, counterexample. `1 * 2^32` is not representable in `int`, yet transposing the
unison up 32 octaves returns the interval `0/1`, built from `powi(2, 32)` wrapped to `0`,
instead of failing. -/
theorem add_octaves_wraps_silently :
    ¬ InInt (1 * 2 ^ 32) ∧
    (TuningInterval.fromRatio ⟨1, 1⟩ : TuningInterval ℚ).add_octaves 32
      = Except.ok (TuningInterval.fromRatio ⟨0, 1⟩) := by
  refine ⟨by decide, ?_⟩
  have hu : toUnsigned 32 = 32 := by decide
  have hp : powi 2 32 = 0 := by
    rw [powi_eq_wrap32_pow]
    decide
  simp [TuningInterval.add_octaves, hu, hp, TuningInterval.ofNumerDenom, Ratio.make, wrap32]

/-! ## Error bound and termination of the Farey search -/

/-- The search started on neighbouring fractions that bracket `x`, with a bound between `1`
and `2^30`, returns a fraction `p/q` in lowest terms with `|x * q - p| * max_denom < 1`. -/
theorem fareyLoop_error {K : Type} [LinearOrderedField K] (x : K) (max_denom : Int)
    (h1 : 1 ≤ max_denom) (h2 : max_denom ≤ 1073741824) :
    ∀ (n : Nat) (a b c d : Int), FareyInv a b c d → (b ≤ max_denom ∨ d ≤ max_denom) →
      max_denom + 1 - max b d ≤ (n : Int) →
      (a : K) ≤ x * (b : K) → x * (d : K) ≤ (c : K) →
      ∃ r, fareyLoop x max_denom n a b c d = some (Except.ok r) ∧
        1 ≤ r.den ∧ r.den ≤ max_denom ∧ Int.gcd r.num r.den = 1 ∧
        |x * (r.den : K) - (r.num : K)| * (max_denom : K) < 1 := by
  have hM : (0 : K) < (max_denom : K) := by exact_mod_cast (by omega : (0 : Int) < max_denom)
  -- the three possible results
  have upper : ∀ (a b c d : Int) (m : K), FareyInv a b c d → (a : K) ≤ x * (b : K) →
      x * (d : K) ≤ (c : K) → m * ((c : K) - x * (d : K)) ≤ 1 → (max_denom : K) < m →
      |x * (d : K) - (c : K)| * (max_denom : K) < 1 := by
    intro a b c d m _ _ hhi hm hlt
    rw [abs_of_nonpos (by linarith)]
    rcases eq_or_lt_of_le (sub_nonneg.2 hhi) with h0 | hpos
    · have : -(x * (d : K) - (c : K)) = 0 := by linarith
      rw [this, zero_mul]; exact one_pos
    · nlinarith
  have lower : ∀ (a b c d : Int) (m : K), FareyInv a b c d → (a : K) ≤ x * (b : K) →
      x * (d : K) ≤ (c : K) → m * (x * (b : K) - (a : K)) ≤ 1 → (max_denom : K) < m →
      |x * (b : K) - (a : K)| * (max_denom : K) < 1 := by
    intro a b c d m _ hlo _ hm hlt
    rw [abs_of_nonneg (by linarith)]
    rcases eq_or_lt_of_le (sub_nonneg.2 hlo) with h0 | hpos
    · rw [← h0, zero_mul]; exact one_pos
    · nlinarith
  -- leaving the loop
  have hexit : ∀ (n : Nat) (a b c d : Int), FareyInv a b c d →
      (b ≤ max_denom ∨ d ≤ max_denom) → ¬(b ≤ max_denom ∧ d ≤ max_denom) →
      (a : K) ≤ x * (b : K) → x * (d : K) ≤ (c : K) →
      ∃ r, fareyLoop x max_denom n a b c d = some (Except.ok r) ∧
        1 ≤ r.den ∧ r.den ≤ max_denom ∧ Int.gcd r.num r.den = 1 ∧
        |x * (r.den : K) - (r.num : K)| * (max_denom : K) < 1 := by
    intro n a b c d hinv hor hncond hlo hhi
    obtain ⟨i1, i2, i3, i4, i5, i6, i7⟩ := id hinv
    have h7K : (b : K) * (c : K) - (a : K) * (d : K) = 1 := by exact_mod_cast i7
    have hbK : (0 : K) < (b : K) := by exact_mod_cast (by omega : (0 : Int) < b)
    have hdK : (0 : K) < (d : K) := by exact_mod_cast (by omega : (0 : Int) < d)
    rw [fareyLoop_exit x max_denom n a b c d hncond]
    by_cases hb : b > max_denom
    · rw [if_pos hb, Ratio.make_of_normal c d (by omega) hinv.gcd_right]
      refine ⟨⟨c, d⟩, rfl, i4, by show d ≤ max_denom; omega, hinv.gcd_right, ?_⟩
      apply upper a b c d (b : K) hinv hlo hhi _ (by exact_mod_cast hb)
      nlinarith
    · rw [if_neg hb, Ratio.make_of_normal a b (by omega) hinv.gcd_left]
      have hd : max_denom < d := by omega
      refine ⟨⟨a, b⟩, rfl, i2, by show b ≤ max_denom; omega, hinv.gcd_left, ?_⟩
      apply lower a b c d (d : K) hinv hlo hhi _ (by exact_mod_cast hd)
      nlinarith
  intro n
  induction n with
  | zero =>
    intro a b c d hinv hor hn hlo hhi
    refine hexit 0 a b c d hinv hor ?_ hlo hhi
    rintro ⟨hb, hd⟩
    have := max_le hb hd
    simp only [Nat.cast_zero] at hn
    omega
  | succ n ih =>
    intro a b c d hinv hor hn hlo hhi
    obtain ⟨i1, i2, i3, i4, i5, i6, i7⟩ := id hinv
    have h7K : (b : K) * (c : K) - (a : K) * (d : K) = 1 := by exact_mod_cast i7
    by_cases hcond : b ≤ max_denom ∧ d ≤ max_denom
    · have hsum : b + d ≤ INT_MAX := hinv.sum_le h2 hcond.1 hcond.2
      rw [fareyLoop_step x max_denom n a b c d i1 (by omega) i3 (by omega) (by omega)
        (by omega) hsum hcond]
      have hmax : max b d + 1 ≤ b + d := by
        rcases max_cases b d with ⟨e, _⟩ | ⟨e, _⟩ <;> rw [e] <;> omega
      split_ifs with e1 e2 e3 e4
      · rw [Ratio.make_of_normal _ _ (by omega) hinv.gcd_mediant]
        refine ⟨⟨a + c, b + d⟩, rfl, by show 1 ≤ b + d; omega, e2, hinv.gcd_mediant, ?_⟩
        show |x * ((b + d : Int) : K) - ((a + c : Int) : K)| * (max_denom : K) < 1
        rw [e1, sub_self, abs_zero, zero_mul]
        exact one_pos
      · rw [Ratio.make_of_normal c d (by omega) hinv.gcd_right]
        refine ⟨⟨c, d⟩, rfl, i4, hcond.2, hinv.gcd_right, ?_⟩
        have hlt : (max_denom : K) < ((b + d : Int) : K) := by
          exact_mod_cast (not_le.1 e2)
        apply upper a b c d _ hinv hlo hhi _ hlt
        push_cast at e1 ⊢
        have : ((b : K) + (d : K)) * ((c : K) - x * (d : K)) = 1 := by
          linear_combination h7K - (d : K) * e1
        rw [this]
      · rw [Ratio.make_of_normal a b (by omega) hinv.gcd_left]
        refine ⟨⟨a, b⟩, rfl, i2, hcond.1, hinv.gcd_left, ?_⟩
        have hlt : (max_denom : K) < ((b + d : Int) : K) := by
          exact_mod_cast (not_le.1 e2)
        apply lower a b c d _ hinv hlo hhi _ hlt
        push_cast at e1 ⊢
        have : ((b : K) + (d : K)) * (x * (b : K) - (a : K)) = 1 := by
          linear_combination h7K + (b : K) * e1
        rw [this]
      · apply ih _ _ _ _ hinv.lower (Or.inr hcond.2) _ e4.le hhi
        have : b + d ≤ max (b + d) d := le_max_left _ _
        push_cast at hn
        omega
      · apply ih _ _ _ _ hinv.upper (Or.inl hcond.1) _ hlo
          (le_of_lt (lt_of_le_of_ne (not_lt.1 e4) e1))
        have : b + d ≤ max b (b + d) := le_max_right _ _
        push_cast at hn
        omega
    · exact hexit _ a b c d hinv hor hcond hlo hhi

/-- C17, amended. For every bound with `1 ≤ max_denom ≤ 2^30` and every `x` in `[0, 1]`, the
fraction `p/q` returned by `farey(x, max_denom)` is in lowest terms, has `1 ≤ q ≤
max_denom`, and satisfies `|x - p/q| < 1 / (q * max_denom)`. -/
theorem farey_error_bound {K : Type} [LinearOrderedField K] (x : K) (max_denom : Int)
    (h1 : 1 ≤ max_denom) (h2 : max_denom ≤ 1073741824) (hx0 : 0 ≤ x) (hx1 : x ≤ 1) :
    ∃ r, farey max_denom.toNat x max_denom = some (Except.ok r) ∧
      1 ≤ r.den ∧ r.den ≤ max_denom ∧ Int.gcd r.num r.den = 1 ∧
      |x - (r.num : K) / (r.den : K)| < 1 / ((r.den : K) * (max_denom : K)) := by
  have hmax : max (1 : Int) 1 = 1 := max_self 1
  obtain ⟨r, hr, g1, g2, g3, g4⟩ :=
    fareyLoop_error x max_denom h1 h2 max_denom.toNat 0 1 1 1 fareyInv_init (Or.inl h1)
      (by rw [hmax]; omega) (by simpa using hx0) (by simpa using hx1)
  refine ⟨r, hr, g1, g2, g3, ?_⟩
  have hq : (0 : K) < (r.den : K) := by exact_mod_cast (by omega : (0 : Int) < r.den)
  have hM : (0 : K) < (max_denom : K) := by exact_mod_cast (by omega : (0 : Int) < max_denom)
  have e : x - (r.num : K) / (r.den : K) = (x * (r.den : K) - (r.num : K)) / (r.den : K) := by
    field_simp
  rw [e, abs_div, abs_of_pos hq, div_lt_div_iff hq (mul_pos hq hM)]
  have h0 := abs_nonneg (x * (r.den : K) - (r.num : K))
  nlinarith

/-- With the bound `INT_MAX` the search for `0` is still in its loop after `fuel`
iterations, for every `fuel` up to the distance of `d` from `-1` around the 32-bit circle. -/
theorem fareyLoop_zero_running {K : Type} [LinearOrderedField K] :
    ∀ (fuel : Nat) (d : Int), InInt d →
      (fuel : Int) ≤ (-1 - d) % 4294967296 →
      fareyLoop (0 : K) INT_MAX fuel 0 1 1 d = none := by
  intro fuel
  induction fuel with
  | zero =>
    intro d hd _
    rw [fareyLoop, if_pos ⟨by decide, hd.2⟩]
  | succ fuel ih =>
    intro d hd hf
    rw [fareyLoop, if_pos ⟨by decide, hd.2⟩]
    have e1 : addU64 (toU64 0) (toU64 1) = 1 := by decide
    simp only [e1]
    have hm : d ≠ -1 := by
      rintro rfl
      push_cast at hf
      omega
    have hpos : 0 < addU64 (toU64 1) (toU64 d) := by
      unfold addU64 toU64
      unfold InInt INT_MIN INT_MAX at hd
      omega
    have hK : (0 : K) < ((addU64 (toU64 1) (toU64 d) : Nat) : K) := by exact_mod_cast hpos
    have hmed : (0 : K) < ((1 : Nat) : K) / ((addU64 (toU64 1) (toU64 d) : Nat) : K) := by
      apply div_pos _ hK
      norm_num
    have e3 : mediant_equal (0 : K) 1 (addU64 (toU64 1) (toU64 d)) = false := by
      unfold mediant_equal
      rw [if_neg hpos.ne']
      exact decide_eq_false hmed.ne
    have e4 : mediant_below (0 : K) 1 (addU64 (toU64 1) (toU64 d)) = false := by
      unfold mediant_below
      rw [if_neg hpos.ne']
      exact decide_eq_false (not_lt.2 hmed.le)
    have e5 : wrap32 (1 + 0) = 1 := by decide
    rw [e3, e4, e5]
    simp only [Bool.false_eq_true, if_false]
    apply ih _ (wrap32_InInt _)
    unfold wrap32
    unfold InInt INT_MIN INT_MAX at hd
    push_cast at hf
    omega

/-- C15, amended. For every `x` and every bound with `0 ≤ max_denom ≤ 2^30`, the loop of
`farey` terminates after at most `max_denom` executions of its body.  The initial state
satisfies the invariant, and from a state satisfying it with both denominators within the
bound one execution of the body either returns, or continues with `b` replaced by
`b + d > b` and `d` unchanged, or continues with `d` replaced by `b + d > d` and `b`
unchanged, the invariant being kept. -/
theorem farey_terminates {K : Type} [LinearOrderedField K] (x : K) (max_denom : Int)
    (h0 : 0 ≤ max_denom) (h2 : max_denom ≤ 1073741824) :
    (∃ r, farey max_denom.toNat x max_denom = some (Except.ok r)) ∧
    FareyInv 0 1 1 1 ∧
    (∀ a b c d : Int, FareyInv a b c d → b ≤ max_denom → d ≤ max_denom →
      (∃ r, ∀ fuel, fareyLoop x max_denom (fuel + 1) a b c d = some r) ∨
      ((∀ fuel, fareyLoop x max_denom (fuel + 1) a b c d
          = fareyLoop x max_denom fuel (a + c) (b + d) c d) ∧
        b < b + d ∧ FareyInv (a + c) (b + d) c d) ∨
      ((∀ fuel, fareyLoop x max_denom (fuel + 1) a b c d
          = fareyLoop x max_denom fuel a b (a + c) (b + d)) ∧
        d < b + d ∧ FareyInv a b (a + c) (b + d))) := by
  refine ⟨?_, fareyInv_init, ?_⟩
  · rcases eq_or_lt_of_le h0 with hz | hpos
    · subst hz
      refine ⟨⟨1, 1⟩, ?_⟩
      unfold farey
      rw [fareyLoop_exit _ _ _ _ _ _ _ (by decide), if_pos (by decide)]
      rfl
    · obtain ⟨r, hr, _⟩ := farey_returns x max_denom (by omega) h2
      exact ⟨r, hr⟩
  · intro a b c d hinv hb hd
    obtain ⟨i1, i2, i3, i4, i5, i6, i7⟩ := id hinv
    have hsum : b + d ≤ INT_MAX := hinv.sum_le h2 hb hd
    have hstep := fun fuel => fareyLoop_step x max_denom fuel a b c d i1 (by omega) i3
      (by omega) (by omega) (by omega) hsum ⟨hb, hd⟩
    by_cases e1 : x * ((b + d : Int) : K) = ((a + c : Int) : K)
    · left
      simp only [e1, if_true] at hstep
      split_ifs at hstep
      · exact ⟨_, hstep⟩
      · exact ⟨_, hstep⟩
      · exact ⟨_, hstep⟩
    · by_cases e2 : ((a + c : Int) : K) < x * ((b + d : Int) : K)
      · right; left
        simp only [e1, e2, if_true, if_false] at hstep
        exact ⟨hstep, by omega, hinv.lower⟩
      · right; right
        simp only [e1, e2, if_false] at hstep
        exact ⟨hstep, by omega, hinv.upper⟩

/-- Termination within 200 iterations for `x = 1/7`. -/
theorem farey_terminates_witness :
    ∃ r, farey (200 : Int).toNat (1 / 7 : ℚ) 200 = some (Except.ok r) :=
  (farey_terminates (1 / 7 : ℚ) 200 (by decide) (by decide)).1

/-- C15, counterexample. For `max_denom = INT_MAX` and `x = 0` the loop is still running after
`max_denom` executions of its body, and even after `4294967294`. -/
theorem farey_still_running_at_INT_MAX :
    (0 : Int) ≤ 2147483647 ∧
    farey 2147483647 (0 : ℚ) 2147483647 = none ∧
    farey 4294967294 (0 : ℚ) 2147483647 = none := by
  have e : (2147483647 : Int) = INT_MAX := rfl
  refine ⟨by decide, ?_, ?_⟩
  · unfold farey
    rw [e]
    exact fareyLoop_zero_running _ 1 (by decide) (by decide)
  · unfold farey
    rw [e]
    exact fareyLoop_zero_running _ 1 (by decide) (by decide)

/-- The error bound at `x = 249/250` and `max_denom = 200`. -/
theorem farey_error_bound_witness :
    ∃ r, farey (200 : Int).toNat (249 / 250 : ℚ) 200 = some (Except.ok r) ∧
      1 ≤ r.den ∧ r.den ≤ 200 ∧ Int.gcd r.num r.den = 1 ∧
      |(249 / 250 : ℚ) - (r.num : ℚ) / (r.den : ℚ)|
        < 1 / ((r.den : ℚ) * ((200 : Int) : ℚ)) :=
  farey_error_bound (249 / 250 : ℚ) 200 (by decide) (by decide) (by norm_num) (by norm_num)

/-- C17, counterexample. For `max_denom = INT_MAX` and `x = 0` in `[0, 1]` no fraction within
the error bound is returned, however long the search runs. -/
theorem farey_no_error_bound_at_INT_MAX :
    (1 : Int) ≤ 2147483647 ∧ (0 : ℚ) ≤ 0 ∧ (0 : ℚ) ≤ 1 ∧
    ¬ ∃ (fuel : Nat) (r : Ratio), farey fuel (0 : ℚ) 2147483647 = some (Except.ok r) ∧
      |(0 : ℚ) - (r.num : ℚ) / (r.den : ℚ)| < 1 / ((r.den : ℚ) * ((2147483647 : Int) : ℚ)) := by
  refine ⟨by decide, le_rfl, by norm_num, ?_⟩
  rintro ⟨fuel, r, h, _⟩
  unfold farey at h
  have e : (2147483647 : Int) = INT_MAX := rfl
  rw [e] at h
  rcases fareyLoop_zero_wraps (K := ℚ) fuel 1 (by decide) (by decide) with h0 | h0
  · rw [h0] at h
    cases h
  · rw [h0] at h
    cases h

end MusicTheory
